import Mathlib

/-!
Shallow embedding of the word-ledger and payment-reconciliation core of the
repository (a Next.js + PostgreSQL application).  The embedding translates:

- `src/lib/types.ts` — enums, record shapes, pricing and validation constants;
- `db/migration.sql`, `db/migration_002_admin_features.sql` — table shapes,
  the `words_position_seq` sequence and check constraints;
- `src/lib/words.ts` — the word repository operations (publish, flag, redact,
  uncover, admin operations, `getStory`, `toApiResponse`);
- `src/lib/validation.ts` — word-content validation;
- the checkout route (`validateCart`, `POST /api/checkout`) and the Stripe
  webhook route (`POST /api/webhooks/stripe`).

The database is modelled as an explicit state record (`DB`); each SQL
statement becomes a pure transformation of that state.  UUIDs are modelled by
a `nextId` counter (the only property the code relies on is freshness);
Stripe is modelled by recording created payment intents and issued refunds in
the state; money amounts are exact integer cents.  Timestamps are omitted: no claim
under consideration depends on them.
-/

namespace Redacted

/-- Word lifecycle states, from the `WordStatus` enum in `src/lib/types.ts`
(string enum; `protected` is a Lean keyword, embedded as `protected_`). -/
inductive WordStatus where
  | pending
  | visible
  | protected_
  | flagged
  | redacted
  | admin_redacted
  | admin_removed
  | linebreak
deriving Repr, DecidableEq

/-- Validation constant `VALIDATION.MAX_WORD_LENGTH` from `src/lib/types.ts`. -/
def MAX_WORD_LENGTH : Nat := 20

/-- Validation constant `VALIDATION.MIN_WORD_LENGTH` from `src/lib/types.ts`. -/
def MIN_WORD_LENGTH : Nat := 1

/-- Validation constant `VALIDATION.MAX_FLAG_COUNT` from `src/lib/types.ts`. -/
def MAX_FLAG_COUNT : Int := 20

/-- Validation constant `VALIDATION.FLAG_RATE_LIMIT` from `src/lib/types.ts`. -/
def FLAG_RATE_LIMIT : Nat := 100

/-- Pricing constant `PRICING.STRIPE_MINIMUM` from `src/lib/types.ts`
(0.50 dollars).  Money is embedded in exact integer cents throughout (the
source carries dollar floats; Stripe itself charges integer cents via
`Math.round(dollars * 100)` in `src/lib/stripe.ts`), so 0.50 becomes 50. -/
def STRIPE_MINIMUM : Int := 50

/-- Row of the `words` table (`WordRecord` in `src/lib/types.ts`).  The UUID
primary key is modelled as a `Nat`; `position` is nullable (`NULL` while a
word is unconfirmed); `flag_count` is an integer column with a
`CHECK (flag_count >= 0 AND flag_count <= 20)` constraint; `created_at` and
`session_fingerprint` are omitted (no claim depends on them). -/
structure WordRecord where
  id : Nat
  position : Option Nat := none
  content : String
  flag_count : Int := 0
  status : WordStatus
  stripe_payment_intent_id : Option String := none
deriving Repr, DecidableEq

/-- Cart action kinds, from the `CartActionType` enum in `src/lib/types.ts`. -/
inductive CartActionType where
  | write
  | redact
  | uncover
  | flag
deriving Repr, DecidableEq

/-- One proposed paid action (`CartAction` in `src/lib/types.ts`).  `wordId`
is an id of a `words` row (absent for write actions); `wordContent` is only
for write actions; `price` is the client-declared price in dollars. -/
structure CartAction where
  type : CartActionType
  wordId : Option Nat := none
  wordContent : Option String := none
  price : Int := 0
deriving Repr, DecidableEq

/-- Per-action outcome recorded on completion (`ActionResult` in
`src/lib/types.ts`). -/
structure ActionResult where
  type : CartActionType
  wordId : Option Nat
  success : Bool
  reason : Option String := none
deriving Repr, DecidableEq

/-- Checkout lifecycle states (`status` column of the `checkouts` table,
constrained to pending/processing/completed/failed). -/
inductive CheckoutStatus where
  | pending
  | processing
  | completed
  | failed
deriving Repr, DecidableEq

/-- Row of the `checkouts` table from `db/migration.sql`: one per Stripe
payment intent, with the submitted batch stored as structured data. -/
structure Checkout where
  stripe_payment_intent_id : String
  status : CheckoutStatus := .pending
  cart_actions : List CartAction
  results : Option (List ActionResult) := none
  total_amount : Int
  refund_amount : Int := 0
deriving Repr, DecidableEq

/-- The database state: the `words`, `word_flags` and `checkouts` tables, the
`words_position_seq` sequence (`posSeq` is the last value it handed out), a
UUID supply (`nextId`), and the externally observable Stripe effects (created
payment intents with their amounts in cents, and issued refunds). -/
structure DB where
  words : List WordRecord := []
  word_flags : List (Nat × String) := []
  checkouts : List Checkout := []
  posSeq : Nat := 0
  nextId : Nat := 0
  payment_intents : List (String × Int) := []
  refunds : List (String × Int) := []
deriving Repr, DecidableEq

/-- Lookup `SELECT * FROM words WHERE id = $1` (queryOne: first matching row;
ids are unique by the primary-key constraint). -/
def findWord (db : DB) (wid : Nat) : Option WordRecord :=
  db.words.find? (fun w => w.id == wid)

/-- Update of the `words` row(s) whose id matches (`UPDATE words ... WHERE
id = $n`; at most one row matches thanks to the primary key). -/
def updateWord (db : DB) (wid : Nat) (f : WordRecord → WordRecord) : DB :=
  { db with words := db.words.map (fun w => if w.id == wid then f w else w) }

/-- Opacity formula `computeOpacity` from `src/lib/words.ts`:
`(flag_count / 20) * 0.8`. -/
def computeOpacity (flagCount : Int) : Rat :=
  ((flagCount : Rat) / (MAX_FLAG_COUNT : Rat)) * (8/10)

/-- `createPendingWord` from `src/lib/words.ts`: inserts a new word in
`pending` status tied to a payment intent.  No position is assigned here.
Returns the fresh id together with the new state (uuidv4 is modelled by the
`nextId` supply). -/
def createPendingWord (db : DB) (content : String) (paymentIntentId : String) :
    Nat × DB :=
  (db.nextId,
   { db with
       words := db.words ++
         [{ id := db.nextId, content := content, status := .pending,
            stripe_payment_intent_id := some paymentIntentId }],
       nextId := db.nextId + 1 })

/-- `publishWord` from `src/lib/words.ts`:
`UPDATE words SET status = 'visible', position = nextval('words_position_seq'),
created_at = NOW() WHERE id = $2 AND status = 'pending'`.
`nextval` is drawn only when a row matches (ids are unique, so at most one
does); the sequence is bumped exactly then. -/
def publishWord (db : DB) (wid : Nat) : DB :=
  if db.words.any (fun w => w.id == wid && w.status == .pending) then
    { db with
        words := db.words.map (fun w =>
          if w.id == wid && w.status == .pending then
            { w with status := .visible, position := some (db.posSeq + 1) }
          else w),
        posSeq := db.posSeq + 1 }
  else db

/-- Count of `word_flags` rows for a fingerprint
(`SELECT COUNT(*) FROM word_flags WHERE session_fingerprint = $1`). -/
def countFlagsBy (db : DB) (fp : String) : Nat :=
  (db.word_flags.filter (fun p => p.2 == fp)).length

/-- `flagWord` from `src/lib/words.ts`.  Guard order as in the source: word
must exist; fail on `redacted`/`admin_removed`; at the flag ceiling return the
current count without effect; reject a duplicate (word, fingerprint) flag;
reject past the global per-fingerprint rate limit; otherwise insert the flag
record, clamp-increment `flag_count` and move `visible` words to `flagged`.
Returns (`null` or the new count and opacity, new state). -/
def flagWord (db : DB) (wid : Nat) (fp : String) :
    Option (Int × Rat) × DB :=
  match findWord db wid with
  | none => (none, db)
  | some word =>
    if word.status == .redacted || word.status == .admin_removed then
      (none, db)
    else if MAX_FLAG_COUNT ≤ word.flag_count then
      (some (word.flag_count, computeOpacity word.flag_count), db)
    else if db.word_flags.any (fun p => p.1 == wid && p.2 == fp) then
      (none, db)
    else if FLAG_RATE_LIMIT ≤ countFlagsBy db fp then
      (none, db)
    else
      let newStatus := if word.status == .visible then .flagged else word.status
      let newCount := min (word.flag_count + 1) MAX_FLAG_COUNT
      let db1 := { db with word_flags := db.word_flags ++ [(wid, fp)] }
      let db2 := updateWord db1 wid (fun w =>
        { w with flag_count := min (w.flag_count + 1) MAX_FLAG_COUNT,
                 status := newStatus })
      (some (newCount, computeOpacity newCount), db2)

/-- `redactWord` from `src/lib/words.ts` (paid redaction): fails on a missing
word and on `redacted`/`admin_removed` (stale action), otherwise sets status
to `redacted` and resets `flag_count` to 0. -/
def redactWord (db : DB) (wid : Nat) : DB × Bool :=
  match findWord db wid with
  | none => (db, false)
  | some word =>
    if word.status == .redacted || word.status == .admin_removed then
      (db, false)
    else
      (updateWord db wid (fun w => { w with status := .redacted, flag_count := 0 }),
       true)

/-- `uncoverWord` from `src/lib/words.ts` (paid uncover): regular users can
only uncover user-redacted words, not admin-locked ones; on success sets
status to `visible` and resets `flag_count` to 0. -/
def uncoverWord (db : DB) (wid : Nat) : DB × Bool :=
  match findWord db wid with
  | none => (db, false)
  | some word =>
    if word.status == .redacted then
      (updateWord db wid (fun w => { w with status := .visible, flag_count := 0 }),
       true)
    else
      (db, false)

/-- `adminUncoverWord` from `src/lib/words.ts`: works on both `redacted` and
`admin_redacted` words; sets status `visible` and resets `flag_count`. -/
def adminUncoverWord (db : DB) (wid : Nat) : DB × Bool :=
  match findWord db wid with
  | none => (db, false)
  | some word =>
    if word.status == .redacted || word.status == .admin_redacted then
      (updateWord db wid (fun w => { w with status := .visible, flag_count := 0 }),
       true)
    else
      (db, false)

/-- `adminRemoveWord` from `src/lib/words.ts`: any existing word becomes
`admin_removed` with `flag_count` reset. -/
def adminRemoveWord (db : DB) (wid : Nat) : DB × Bool :=
  match findWord db wid with
  | none => (db, false)
  | some _ =>
    (updateWord db wid (fun w => { w with status := .admin_removed, flag_count := 0 }),
     true)

/-- `adminRedactWord` from `src/lib/words.ts`: permanent redaction that a
paid user uncover cannot reverse. -/
def adminRedactWord (db : DB) (wid : Nat) : DB × Bool :=
  match findWord db wid with
  | none => (db, false)
  | some _ =>
    (updateWord db wid (fun w => { w with status := .admin_redacted, flag_count := 0 }),
     true)

/-- `adminRestoreWord` from `src/lib/words.ts`: restores an `admin_removed`
word back to `visible`. -/
def adminRestoreWord (db : DB) (wid : Nat) : DB × Bool :=
  match findWord db wid with
  | none => (db, false)
  | some word =>
    if word.status == .admin_removed then
      (updateWord db wid (fun w => { w with status := .visible, flag_count := 0 }),
       true)
    else
      (db, false)

/-- `adminFlagWord` from `src/lib/words.ts`: force-adds a flag bypassing the
dedup and rate-limit checks, but still clamps the count at the maximum and
drives `visible` to `flagged`. -/
def adminFlagWord (db : DB) (wid : Nat) : DB × Bool :=
  match findWord db wid with
  | none => (db, false)
  | some word =>
    let newStatus := if word.status == .visible then .flagged else word.status
    (updateWord db wid (fun w =>
       { w with flag_count := min (w.flag_count + 1) MAX_FLAG_COUNT,
                status := newStatus }),
     true)

/-- `adminUnflagWord` from `src/lib/words.ts`: refuses when `flag_count` is
already 0 (or the word is missing); otherwise decrements and resets status to
`visible` when the count reaches 0. -/
def adminUnflagWord (db : DB) (wid : Nat) : DB × Bool :=
  match findWord db wid with
  | none => (db, false)
  | some word =>
    if word.flag_count ≤ 0 then (db, false)
    else
      let newFlagCount := word.flag_count - 1
      let newStatus := if newFlagCount == 0 then WordStatus.visible else word.status
      (updateWord db wid (fun w =>
         { w with flag_count := newFlagCount, status := newStatus }),
       true)

/-- `adminWriteWord` from `src/lib/words.ts`: inserts a `visible` word with a
position drawn from `words_position_seq` at insert time. -/
def adminWriteWord (db : DB) (content : String) : Nat × DB :=
  (db.nextId,
   { db with
       words := db.words ++
         [{ id := db.nextId, content := content, status := .visible,
            position := some (db.posSeq + 1) }],
       posSeq := db.posSeq + 1,
       nextId := db.nextId + 1 })

/-- `adminDeleteWord` from `src/lib/words.ts`: hard-deletes the row and its
flag records. -/
def adminDeleteWord (db : DB) (wid : Nat) : DB × Bool :=
  match findWord db wid with
  | none => (db, false)
  | some _ =>
    ({ db with
         words := db.words.filter (fun w => !(w.id == wid)),
         word_flags := db.word_flags.filter (fun p => !(p.1 == wid)) },
     true)

/-- Client-facing word shape (`ApiWordResponse` in `src/lib/types.ts`):
`content` is nullable, `content_length` is the real character count. -/
structure ApiWordResponse where
  id : Nat
  position : Option Nat
  content : Option String
  content_length : Nat
  flag_count : Int
  status : WordStatus
deriving Repr, DecidableEq

/-- `toApiResponse` from `src/lib/words.ts`: strips `content` from
redacted/admin-redacted/admin-removed words, keeping `content_length`. -/
def toApiResponse (row : WordRecord) : ApiWordResponse :=
  let isHidden := row.status == .redacted || row.status == .admin_redacted ||
    row.status == .admin_removed
  { id := row.id
    position := row.position
    content := if isHidden then none else some row.content
    content_length := row.content.length
    flag_count := row.flag_count
    status := row.status }

/-- Comparison used to embed `ORDER BY position ASC` (PostgreSQL sorts `NULL`
last under ascending order by default). -/
def positionLE (a b : Option Nat) : Bool :=
  match a, b with
  | some x, some y => decide (x ≤ y)
  | some _, none => true
  | none, none => true
  | none, some _ => false

/-- Ordering relation on word rows used to embed `ORDER BY position ASC`. -/
def byPosition (a b : WordRecord) : Prop :=
  positionLE a.position b.position = true

instance : DecidableRel byPosition := fun a b => by
  unfold byPosition; infer_instance

instance : IsTotal WordRecord byPosition where
  total a b := by
    unfold byPosition positionLE
    rcases a.position with _ | x <;> rcases b.position with _ | y <;> simp <;> omega

instance : IsTrans WordRecord byPosition where
  trans a b c := by
    unfold byPosition positionLE
    rcases a.position with _ | x <;> rcases b.position with _ | y <;>
      rcases c.position with _ | z <;> simp <;> omega

/-- `getStory` from `src/lib/words.ts`:
`SELECT ... FROM words WHERE status != 'pending' ORDER BY position ASC`,
mapped through `toApiResponse`.  ORDER BY is embedded as a sort by
`byPosition` (PostgreSQL guarantees sortedness, not a particular stable
algorithm). -/
def getStory (db : DB) : List ApiWordResponse :=
  ((db.words.filter (fun w => !(w.status == .pending))).insertionSort
      byPosition).map toApiResponse

/-- Validation outcome (`ValidationResult` in `src/lib/validation.ts`). -/
structure ValidationResult where
  valid : Bool
  error : Option String := none
deriving Repr, DecidableEq

/-- Character allowlist of the `WORD_PATTERN` regex in `src/lib/validation.ts`
(ASCII letters plus the site punctuation set; the backtick and the apostrophe
are written via `Char.ofNat`). -/
def allowedChar (c : Char) : Bool :=
  c.isAlpha ||
    [Char.ofNat 96, Char.ofNat 39, Char.ofNat 34,
     Char.ofNat 126, Char.ofNat 33, Char.ofNat 36, Char.ofNat 37,
     Char.ofNat 38, Char.ofNat 42, Char.ofNat 95, Char.ofNat 45,
     Char.ofNat 43, Char.ofNat 61, Char.ofNat 58, Char.ofNat 59,
     Char.ofNat 60, Char.ofNat 44, Char.ofNat 62, Char.ofNat 46,
     Char.ofNat 63, Char.ofNat 47, Char.ofNat 124, Char.ofNat 92].contains c

/-- Test of the regex `WORD_PATTERN = /^[...]{1,20}$/` from
`src/lib/validation.ts`: length between 1 and 20 and every character in the
allowlist. -/
def wordPatternTest (w : String) : Bool :=
  decide (1 ≤ w.length) && decide (w.length ≤ MAX_WORD_LENGTH) &&
    w.data.all allowedChar

/-- `validateWord` from `src/lib/validation.ts`: minimum length (the JS falsy
check on the empty string is subsumed by `length < 1`), maximum length, then
the character-allowlist regex. -/
def validateWord (word : String) : ValidationResult :=
  if word.length < MIN_WORD_LENGTH then
    { valid := false, error := some "Word must be at least 1 character." }
  else if MAX_WORD_LENGTH < word.length then
    { valid := false, error := some "Word must be 20 characters or fewer." }
  else if !(wordPatternTest word) then
    { valid := false,
      error := some "Word contains disallowed characters. Numbers and certain symbols are not permitted." }
  else
    { valid := true }

/-- Truthiness of an optional string field in the JS source (`undefined` and
the empty string are falsy). -/
def truthy (s : Option String) : Bool :=
  match s with
  | none => false
  | some str => !(str == "")

/-- Accumulation step for the `wordActions` map of `validateCart` (a JS `Map`
keyed by word id, preserving insertion order; `set` on an existing key keeps
its position). -/
def trackWordAction (wa : List (Nat × List CartActionType)) (wid : Nat)
    (t : CartActionType) : List (Nat × List CartActionType) :=
  if wa.any (fun p => p.1 == wid) then
    wa.map (fun p => if p.1 == wid then (p.1, p.2 ++ [t]) else p)
  else
    wa ++ [(wid, [t])]

/-- Loop body of `validateCart` (checkout route): per-action write-content
validation with early exit, word-action tracking, and price accumulation. -/
def cartLoop : List CartAction → Int → List (Nat × List CartActionType) →
    Except String (Int × List (Nat × List CartActionType))
  | [], total, wa => .ok (total, wa)
  | a :: rest, total, wa =>
    if a.type == .write && !(truthy a.wordContent) then
      .error "Write action requires word content."
    else if a.type == .write && !((validateWord (a.wordContent.getD "")).valid) then
      .error ((validateWord (a.wordContent.getD "")).error.getD "")
    else
      let wa1 :=
        match a.wordId with
        | some wid => trackWordAction wa wid a.type
        | none => wa
      cartLoop rest (total + a.price) wa1

/-- Outcome shape of `validateCart` in the checkout route. -/
structure CartCheck where
  valid : Bool
  error : Option String := none
deriving Repr, DecidableEq

/-- `validateCart` from the checkout route: empty-cart check, the per-action
loop, the redact/uncover conflict scan over the word-action map, and the
Stripe minimum on the summed declared prices. -/
def validateCart (actions : List CartAction) : CartCheck :=
  if actions.isEmpty then
    { valid := false, error := some "Cart is empty." }
  else
    match cartLoop actions 0 [] with
    | .error e => { valid := false, error := some e }
    | .ok (expectedTotal, wordActions) =>
      match wordActions.find? (fun p =>
          p.2.contains CartActionType.redact && p.2.contains CartActionType.uncover) with
      | some p =>
        { valid := false,
          error := some ("Conflicting actions on word " ++ toString p.1 ++
            ": cannot redact and uncover in the same checkout.") }
      | none =>
        if expectedTotal < STRIPE_MINIMUM then
          { valid := false, error := some "Cart total must be at least $0.50." }
        else
          { valid := true }

/-- `POST /api/checkout`: validates the cart; on success creates a Stripe
payment intent for the client-supplied `totalAmount` (`createPaymentIntent`
in `src/lib/stripe.ts` charges `Math.round(amountInDollars * 100)` cents —
the identity under the cents embedding) and
inserts a `pending` checkout row recording that amount; on failure returns
the single rejection reason with no state change. -/
def checkoutPOST (db : DB) (actions : List CartAction) (totalAmount : Int)
    (paymentIntentId : String) : DB × Except String String :=
  let cartCheck := validateCart actions
  if cartCheck.valid then
    ({ db with
         payment_intents :=
           db.payment_intents ++ [(paymentIntentId, totalAmount)],
         checkouts :=
           db.checkouts ++
             [{ stripe_payment_intent_id := paymentIntentId,
                cart_actions := actions, total_amount := totalAmount }] },
     .ok paymentIntentId)
  else
    (db, .error (cartCheck.error.getD ""))

/-- Lookup `SELECT * FROM checkouts WHERE stripe_payment_intent_id = $1`
(the column is UNIQUE; queryOne returns the first row). -/
def findCheckout (db : DB) (pi : String) : Option Checkout :=
  db.checkouts.find? (fun c => c.stripe_payment_intent_id == pi)

/-- Update of the checkout row holding a payment intent.  The source updates
`WHERE id = checkout.id`; `stripe_payment_intent_id` is UNIQUE, so updating
by payment intent touches the same single row. -/
def updateCheckoutByPI (db : DB) (pi : String) (f : Checkout → Checkout) : DB :=
  { db with
      checkouts := db.checkouts.map (fun c =>
        if c.stripe_payment_intent_id == pi then f c else c) }

/-- Accumulator of the webhook action loop: evolving database, per-action
results, and the running refund total. -/
structure ProcState where
  db : DB
  results : List ActionResult := []
  refundTotal : Int := 0
deriving Repr, DecidableEq

/-- One iteration of the webhook action loop (`switch (action.type)` in the
Stripe webhook route): a write with truthy content creates and publishes a
word and records a success; redact/uncover with a truthy wordId apply the
ledger transition and record the outcome with a reason on failure; any other
shape leaves `success` false without recording a result.  A non-success with
a positive declared price adds that price to the refund total.  (The ledger
operations of the embedding are total, so the catch-branch for unexpected
per-action exceptions is unreachable here.) -/
def processAction (paymentIntentId : String) (st : ProcState)
    (action : CartAction) : ProcState :=
  match action.type with
  | .write =>
    if truthy action.wordContent then
      let (wordId, db1) := createPendingWord st.db (action.wordContent.getD "")
        paymentIntentId
      let db2 := publishWord db1 wordId
      { st with
          db := db2
          results := st.results ++
            [{ type := .write, wordId := some wordId, success := true }] }
    else
      { st with refundTotal :=
          if 0 < action.price then st.refundTotal + action.price
          else st.refundTotal }
  | .redact =>
    match action.wordId with
    | some wid =>
      let (db1, ok) := redactWord st.db wid
      { db := db1
        results := st.results ++
          [{ type := .redact, wordId := some wid, success := ok,
             reason := if ok then none
               else some "Word is already redacted or removed." }]
        refundTotal :=
          if !ok && decide (0 < action.price) then st.refundTotal + action.price
          else st.refundTotal }
    | none =>
      { st with refundTotal :=
          if 0 < action.price then st.refundTotal + action.price
          else st.refundTotal }
  | .uncover =>
    match action.wordId with
    | some wid =>
      let (db1, ok) := uncoverWord st.db wid
      { db := db1
        results := st.results ++
          [{ type := .uncover, wordId := some wid, success := ok,
             reason := if ok then none
               else some "Word is not currently redacted." }]
        refundTotal :=
          if !ok && decide (0 < action.price) then st.refundTotal + action.price
          else st.refundTotal }
    | none =>
      { st with refundTotal :=
          if 0 < action.price then st.refundTotal + action.price
          else st.refundTotal }
  | .flag =>
    { st with refundTotal :=
        if 0 < action.price then st.refundTotal + action.price
        else st.refundTotal }

/-- `POST` handler of the Stripe webhook route, after signature verification
(a verification failure returns 400 without touching any state and is not
modelled further).  Non-`payment_intent.succeeded` events are acknowledged
without action.  A missing checkout, or one whose status is not `pending`, is
acknowledged without action.  Otherwise: mark `processing`, run the action
loop over the stored batch in submission order, issue a partial refund when
the refund total is positive (`refundSucceeds` models the Stripe call; its
failure is caught and ignored), and persist the checkout as `completed` with
the result list and refund amount.  The returned Bool is the 200
acknowledgement. -/
def handleWebhook (db : DB) (eventType : String) (paymentIntentId : String)
    (refundSucceeds : Bool) : DB × Bool :=
  if !(eventType == "payment_intent.succeeded") then (db, true)
  else
    match findCheckout db paymentIntentId with
    | none => (db, true)
    | some checkout =>
      if !(checkout.status == .pending) then (db, true)
      else
        let db1 := updateCheckoutByPI db paymentIntentId
          (fun c => { c with status := .processing })
        let st := checkout.cart_actions.foldl (processAction paymentIntentId)
          { db := db1 }
        let db2 :=
          if 0 < st.refundTotal then
            if refundSucceeds then
              { st.db with refunds :=
                  st.db.refunds ++ [(paymentIntentId, st.refundTotal)] }
            else st.db
          else st.db
        let db3 := updateCheckoutByPI db2 paymentIntentId (fun c =>
          { c with status := .completed, results := some st.results,
                   refund_amount := st.refundTotal })
        (db3, true)

/-- Effect of one cart action on the database together with its success bit,
factored out of `processAction` (same switch, without result/refund
bookkeeping). -/
def applyCartAction (paymentIntentId : String) (db : DB) (action : CartAction) :
    DB × Bool :=
  match action.type with
  | .write =>
    if truthy action.wordContent then
      let (wordId, db1) := createPendingWord db (action.wordContent.getD "")
        paymentIntentId
      (publishWord db1 wordId, true)
    else (db, false)
  | .redact =>
    match action.wordId with
    | some wid => redactWord db wid
    | none => (db, false)
  | .uncover =>
    match action.wordId with
    | some wid => uncoverWord db wid
    | none => (db, false)
  | .flag => (db, false)

/-- Result entries contributed by one cart action in the webhook loop (empty
for skipped actions). -/
def oneResult (db : DB) (action : CartAction) : List ActionResult :=
  match action.type with
  | .write =>
    if truthy action.wordContent then
      [{ type := .write, wordId := some db.nextId, success := true }]
    else []
  | .redact =>
    match action.wordId with
    | some wid =>
      let ok := (redactWord db wid).2
      [{ type := .redact, wordId := some wid, success := ok,
         reason := if ok then none
           else some "Word is already redacted or removed." }]
    | none => []
  | .uncover =>
    match action.wordId with
    | some wid =>
      let ok := (uncoverWord db wid).2
      [{ type := .uncover, wordId := some wid, success := ok,
         reason := if ok then none
           else some "Word is not currently redacted." }]
    | none => []
  | .flag => []

/-- Refund contribution of one cart action in the webhook loop: its declared
price when it did not succeed and the price is positive. -/
def oneRefund (paymentIntentId : String) (db : DB) (action : CartAction) : Int :=
  if !(applyCartAction paymentIntentId db action).2 && decide (0 < action.price)
  then action.price else 0

/-- Per-action outcomes of replaying a stored batch in submission order: each
action paired with its success bit, evaluated against the evolving ledger. -/
def actionOutcomes (paymentIntentId : String) :
    DB → List CartAction → List (CartAction × Bool)
  | _, [] => []
  | db, a :: rest =>
    let (db1, ok) := applyCartAction paymentIntentId db a
    (a, ok) :: actionOutcomes paymentIntentId db1 rest

/-- Final ledger state after replaying a stored batch in submission order. -/
def replayActions (paymentIntentId : String) : DB → List CartAction → DB
  | db, [] => db
  | db, a :: rest =>
    replayActions paymentIntentId (applyCartAction paymentIntentId db a).1 rest

/-- Refund total of replaying a stored batch in submission order. -/
def refundOf (paymentIntentId : String) : DB → List CartAction → Int
  | _, [] => 0
  | db, a :: rest =>
    oneRefund paymentIntentId db a +
      refundOf paymentIntentId (applyCartAction paymentIntentId db a).1 rest

/-- Result list of replaying a stored batch in submission order. -/
def resultsOf (paymentIntentId : String) : DB → List CartAction → List ActionResult
  | _, [] => []
  | db, a :: rest =>
    oneResult db a ++
      resultsOf paymentIntentId (applyCartAction paymentIntentId db a).1 rest

/-- Ledger mutations reachable through the named operations of the word
repository (the shared-resource policy of the system: no component writes
`position`, `status` or `flag_count` except through these). -/
inductive LedgerOp where
  | createPending (content : String) (paymentIntentId : String)
  | publish (wid : Nat)
  | userFlag (wid : Nat) (fp : String)
  | adminFlag (wid : Nat)
  | adminUnflag (wid : Nat)
  | userRedact (wid : Nat)
  | userUncover (wid : Nat)
  | adminUncover (wid : Nat)
  | adminRedact (wid : Nat)
  | adminRemove (wid : Nat)
  | adminRestore (wid : Nat)
  | adminWrite (content : String)
  | adminDelete (wid : Nat)
deriving Repr, DecidableEq

/-- State transition of one ledger operation (return values discarded). -/
def applyOp (db : DB) : LedgerOp → DB
  | .createPending c pi => (createPendingWord db c pi).2
  | .publish wid => publishWord db wid
  | .userFlag wid fp => (flagWord db wid fp).2
  | .adminFlag wid => (adminFlagWord db wid).1
  | .adminUnflag wid => (adminUnflagWord db wid).1
  | .userRedact wid => (redactWord db wid).1
  | .userUncover wid => (uncoverWord db wid).1
  | .adminUncover wid => (adminUncoverWord db wid).1
  | .adminRedact wid => (adminRedactWord db wid).1
  | .adminRemove wid => (adminRemoveWord db wid).1
  | .adminRestore wid => (adminRestoreWord db wid).1
  | .adminWrite c => (adminWriteWord db c).2
  | .adminDelete wid => (adminDeleteWord db wid).1

/-- Operations of the publish path: word creation (no position assigned) and
pending-to-visible publication (position assigned from the sequence). -/
def isPublishPathOp : LedgerOp → Bool
  | .createPending _ _ => true
  | .publish _ => true
  | _ => false

/-- Invariant: ids of `words` rows are pairwise distinct (the primary key). -/
def IdsNodup (db : DB) : Prop :=
  (db.words.map (fun w => w.id)).Nodup

/-- Invariant: every word id was drawn from the id supply. -/
def IdsBounded (db : DB) : Prop :=
  ∀ w ∈ db.words, w.id < db.nextId

/-- Invariant: assigned positions are pairwise distinct (the UNIQUE
constraint on `words.position`). -/
def PositionsNodup (db : DB) : Prop :=
  (db.words.filterMap (fun w => w.position)).Nodup

/-- Invariant: every assigned position was drawn from `words_position_seq`
(stated through `getD` so the predicate is decidable). -/
def PositionsBounded (db : DB) : Prop :=
  ∀ w ∈ db.words, w.position.getD 0 ≤ db.posSeq

/-- Combined ledger invariant for the publish path. -/
def LedgerInv (db : DB) : Prop :=
  IdsNodup db ∧ IdsBounded db ∧ PositionsNodup db ∧ PositionsBounded db

/-- Invariant of the `CHECK (flag_count >= 0 AND flag_count <= 20)` column
constraint. -/
def FlagInv (db : DB) : Prop :=
  ∀ w ∈ db.words, 0 ≤ w.flag_count ∧ w.flag_count ≤ MAX_FLAG_COUNT

/-- Checkout update of step 4 of the reconciliation engine: mark
`processing`. -/
def markProcessing (x : Checkout) : Checkout :=
  { x with status := .processing }

/-- State after the reconciliation engine has marked the checkout
`processing` (step 4), before the action loop. -/
def dbProcessing (db : DB) (pi : String) : DB :=
  updateCheckoutByPI db pi markProcessing

/-- Checkout update of step 8 of the reconciliation engine: persist
`completed` with the result list and refund amount. -/
def markCompleted (R : List ActionResult) (F : Int) (x : Checkout) : Checkout :=
  { x with
      status := .completed
      results := some R
      refund_amount := F }

/-- Refund issuance step of the reconciliation engine: a positive refund
total is sent to Stripe when the call succeeds; a failed call is caught and
ignored. -/
def refundStep (L : DB) (pi : String) (F : Int) (rOk : Bool) : DB :=
  if 0 < F then
    (if rOk then { L with refunds := L.refunds ++ [(pi, F)] } else L)
  else L

/-- Update applied to the flagged row by `flagWord` (the status decision is
taken from the row read before the update, as in the source). -/
def flagBump (w0 : WordRecord) (x : WordRecord) : WordRecord :=
  { x with
      flag_count := min (x.flag_count + 1) MAX_FLAG_COUNT
      status := if w0.status == .visible then .flagged else w0.status }

/-- A row after one successful below-ceiling flag: count up by one, `visible`
moves to `flagged`, everything else keeps its status. -/
def flaggedOnce (w : WordRecord) : WordRecord :=
  { w with
      flag_count := w.flag_count + 1
      status := if w.status = .visible then .flagged else w.status }

/-- Sum of the declared prices of a batch (the `expectedTotal` accumulated by
`validateCart`, stated declaratively). -/
def cartTotal (actions : List CartAction) : Int :=
  (actions.map (fun a => a.price)).sum

/-- Example rows and states used by the witnesses below. -/
def exVisible : WordRecord :=
  { id := 1, position := some 1, content := "hello", status := .visible }

/-- Example user-redacted word. -/
def exRedacted : WordRecord :=
  { id := 2, position := some 2, content := "secret", status := .redacted }

/-- Example admin-redacted word. -/
def exAdminRedacted : WordRecord :=
  { id := 3, position := some 3, content := "locked", status := .admin_redacted }

/-- Example protected word. -/
def exProtected : WordRecord :=
  { id := 4, position := some 4, content := "prot", status := .protected_ }

/-- Example unconfirmed word. -/
def exPendingW : WordRecord :=
  { id := 5, position := none, content := "pend", status := .pending }

/-- Example database with one word in each interesting status. -/
def exDB : DB :=
  { words := [exVisible, exRedacted, exAdminRedacted, exProtected, exPendingW],
    posSeq := 4, nextId := 6 }

/-- Example write action priced at 1.00 (100 cents). -/
def exWrite : CartAction :=
  { type := .write, wordContent := some "hello", price := 100 }

/-- Example redact action on the already-redacted word, priced at 2.00. -/
def exStaleRedact : CartAction :=
  { type := .redact, wordId := some 2, price := 200 }

/-- Example pending checkout: one write plus one stale redact. -/
def exCheckout : Checkout :=
  { stripe_payment_intent_id := "pi_1", cart_actions := [exWrite, exStaleRedact],
    total_amount := 300 }

/-- Example database holding the pending example checkout. -/
def exDBC : DB :=
  { words := [exVisible, exRedacted], checkouts := [exCheckout],
    posSeq := 2, nextId := 6 }

/-- Stored batch whose only action has the legacy `flag` type but carries a
positive declared price (the checkout validator accepts such a batch, so it
is storable). -/
def cexFlagAction : CartAction :=
  { type := .flag, wordId := some 1, price := 100 }

/-- Pending checkout holding the priced flag action. -/
def cexCheckout : Checkout :=
  { stripe_payment_intent_id := "pi_2", cart_actions := [cexFlagAction],
    total_amount := 100 }

/-- Database holding the priced-flag checkout. -/
def cexDB : DB :=
  { words := [exVisible], checkouts := [cexCheckout], posSeq := 1, nextId := 6 }

/-- Lookup in the `wordActions` map of `validateCart` (JS `Map.get`, empty
list when absent). -/
def lookupWA (wa : List (Nat × List CartActionType)) (wid : Nat) :
    List CartActionType :=
  match wa.find? (fun p => p.1 == wid) with
  | some p => p.2
  | none => []

/-- Action types a batch queues against one word id, in submission order. -/
def typesFor (actions : List CartAction) (wid : Nat) : List CartActionType :=
  (actions.filter (fun a => a.wordId == some wid)).map (fun a => a.type)

/-- Declarative reading of the per-action write validation of
`validateCart`: every write action carries truthy content passing the word
validation rules. -/
def writeActionsValid (actions : List CartAction) : Prop :=
  ∀ a ∈ actions, a.type = CartActionType.write →
    truthy a.wordContent = true ∧
    (validateWord (a.wordContent.getD "")).valid = true

/-- Declarative reading of the conflict rule of `validateCart`: some word id
carries both a redact and an uncover action in the batch. -/
def hasConflict (actions : List CartAction) : Prop :=
  ∃ wid : Nat,
    (∃ a ∈ actions, a.wordId = some wid ∧ a.type = CartActionType.redact) ∧
    (∃ a ∈ actions, a.wordId = some wid ∧ a.type = CartActionType.uncover)

/-- Distinctness of the keys of the `wordActions` map. -/
def WAKeysNodup (wa : List (Nat × List CartActionType)) : Prop :=
  (wa.map (fun p => p.1)).Nodup

/-- Unpacking of a successful `findWord`: the row is in the table and its id
is the searched one. -/
theorem findWord_mem {db : DB} {wid : Nat} {w : WordRecord}
    (h : findWord db wid = some w) : w ∈ db.words ∧ w.id = wid := by
  refine ⟨List.mem_of_find?_eq_some h, ?_⟩
  have := List.find?_some h
  simpa using this

/-- C6: the claim fails on the code.  In the repository's `words.ts` snapshot
the user-level `redactWord` guards only `redacted`/`admin_removed` and
`flagWord` guards only `redacted`/`admin_removed`, so a `protected` word is
not immune: the paid redact succeeds and turns it `redacted`, and the user
flag inserts a flag record and increments `flag_count` (the repository's own
`Word.tsx` documents `protected` as immune to user redact/flag, so this is a
slip in the ledger code, not in the specification). -/
theorem protected_word_not_immune :
    (redactWord exDB 4).2 = true
  ∧ (findWord (redactWord exDB 4).1 4).map (fun w => w.status) =
      some WordStatus.redacted
  ∧ ((flagWord exDB 4 "fp").1).map (fun p => p.1) = some 1
  ∧ (findWord (flagWord exDB 4 "fp").2 4).map (fun w => (w.status, w.flag_count)) =
      some (WordStatus.protected_, 1)
  ∧ (flagWord exDB 4 "fp").2.word_flags = [(4, "fp")] := by
  decide

/-- C7: the user-level uncover succeeds if and only if the target exists with
status exactly `redacted` (hence always fails, changing nothing, on
`admin_redacted`); on success it sets the status to `visible` and resets
`flag_count` to 0; the admin uncover additionally succeeds on
`admin_redacted` words with the same effect. -/
theorem uncover_user_vs_admin (db : DB) (wid : Nat) :
    ((uncoverWord db wid).2 = true ↔
      ∃ w, findWord db wid = some w ∧ w.status = .redacted)
  ∧ ((adminUncoverWord db wid).2 = true ↔
      ∃ w, findWord db wid = some w ∧
        (w.status = .redacted ∨ w.status = .admin_redacted))
  ∧ (∀ w, findWord db wid = some w → w.status = .admin_redacted →
      uncoverWord db wid = (db, false))
  ∧ ((uncoverWord db wid).2 = false → (uncoverWord db wid).1 = db)
  ∧ ((adminUncoverWord db wid).2 = false → (adminUncoverWord db wid).1 = db)
  ∧ ((uncoverWord db wid).2 = true → (uncoverWord db wid).1 =
      updateWord db wid (fun w => { w with status := .visible, flag_count := 0 }))
  ∧ ((adminUncoverWord db wid).2 = true → (adminUncoverWord db wid).1 =
      updateWord db wid (fun w => { w with status := .visible, flag_count := 0 })) := by
  rcases h : findWord db wid with _ | w
  · simp [uncoverWord, adminUncoverWord, h]
  · simp only [uncoverWord, adminUncoverWord, h, beq_iff_eq]
    by_cases hr : w.status = .redacted
    · simp [hr]
    · by_cases ha : w.status = .admin_redacted
      · simp [ha, hr]
      · simp [hr, ha]

/-- Witness for C7: the user uncover succeeds on the redacted example word,
fails without change on the admin-redacted one, and the admin uncover
succeeds there. -/
theorem uncover_user_vs_admin_witness :
    (uncoverWord exDB 2).2 = true
  ∧ uncoverWord exDB 3 = (exDB, false)
  ∧ (adminUncoverWord exDB 3).2 = true := by
  have h2 := uncover_user_vs_admin exDB 2
  have h3 := uncover_user_vs_admin exDB 3
  exact ⟨h2.1.mpr ⟨exRedacted, by decide, rfl⟩,
    h3.2.2.1 exAdminRedacted (by decide) rfl,
    h3.2.1.mpr ⟨exAdminRedacted, by decide, Or.inr rfl⟩⟩

/-- C10: an accepted checkout creates the payment intent for the
client-supplied `totalAmount` and stores that amount on the `pending`
Checkout record; the statement holds for every `totalAmount` whatsoever —
the validator sums declared prices only against the processor minimum and
never compares them with `totalAmount`. -/
theorem checkout_charges_unchecked_total (db : DB) (actions : List CartAction)
    (totalAmount : Int) (piId : String)
    (h : (validateCart actions).valid = true) :
    checkoutPOST db actions totalAmount piId =
      ({ db with
           payment_intents := db.payment_intents ++ [(piId, totalAmount)],
           checkouts := db.checkouts ++
             [{ stripe_payment_intent_id := piId, cart_actions := actions,
                total_amount := totalAmount }] },
       .ok piId) := by
  simp [checkoutPOST, h]

/-- Witness for C10: a batch whose declared prices sum to 100 cents is
accepted and charged 10000 cents, and the stored checkout records 10000. -/
theorem checkout_charges_unchecked_total_witness :
    (validateCart [exWrite]).valid = true
  ∧ cartTotal [exWrite] = 100
  ∧ (10000 : Int) ≠ 100
  ∧ (checkoutPOST exDB [exWrite] 10000 "pi_9").1.payment_intents =
      [("pi_9", 10000)]
  ∧ ((checkoutPOST exDB [exWrite] 10000 "pi_9").1.checkouts.map
      (fun c => c.total_amount)) = [10000] := by
  have h := checkout_charges_unchecked_total exDB [exWrite] 10000 "pi_9" (by decide)
  refine ⟨by decide, by decide, by decide, ?_, ?_⟩
  · rw [h]; decide
  · rw [h]; decide

/-- C5: the story read returns only non-`pending` words, in ascending
position order; every returned word is the image of a stored row whose
`content` is null exactly when the status is in
{redacted, admin_redacted, admin_removed}, while `content_length` always
equals the character count of the stored content; and every non-`pending`
stored row appears. -/
theorem getStory_read_spec (db : DB) :
    (getStory db).Pairwise (fun a b => positionLE a.position b.position = true)
  ∧ (∀ r ∈ getStory db, r.status ≠ .pending)
  ∧ (∀ r ∈ getStory db, ∃ w ∈ db.words, w.status ≠ .pending ∧
      r = toApiResponse w ∧ r.content_length = w.content.length ∧
      (r.content = none ↔
        (r.status = .redacted ∨ r.status = .admin_redacted ∨
         r.status = .admin_removed)))
  ∧ (∀ w ∈ db.words, w.status ≠ .pending → toApiResponse w ∈ getStory db) := by
  have hsorted : List.Sorted byPosition
      ((db.words.filter (fun w => !(w.status == .pending))).insertionSort byPosition) :=
    List.sorted_insertionSort byPosition _
  refine ⟨?_, ?_, ?_, ?_⟩
  · exact List.Pairwise.map toApiResponse (fun a b h => h) hsorted
  · intro r hr
    rcases List.mem_map.mp hr with ⟨w, hw, rfl⟩
    have hw2 := (List.mem_insertionSort byPosition).mp hw
    have := (List.mem_filter.mp hw2).2
    simpa [toApiResponse] using this
  · intro r hr
    rcases List.mem_map.mp hr with ⟨w, hw, rfl⟩
    have hw2 := (List.mem_insertionSort byPosition).mp hw
    rcases List.mem_filter.mp hw2 with ⟨hmem, hstat⟩
    refine ⟨w, hmem, by simpa using hstat, rfl, rfl, ?_⟩
    cases hs : w.status <;> simp [toApiResponse, hs]
  · intro w hw hstat
    refine List.mem_map_of_mem toApiResponse ?_
    exact (List.mem_insertionSort byPosition).mpr
      (List.mem_filter.mpr ⟨hw, by simpa using hstat⟩)

/-- Witness for C5: the visible example word is served by the story read and
is not pending. -/
theorem getStory_read_spec_witness :
    toApiResponse exVisible ∈ getStory exDB ∧
    (toApiResponse exVisible).status ≠ .pending := by
  have h := getStory_read_spec exDB
  have hm := h.2.2.2 exVisible (by decide) (by decide)
  exact ⟨hm, h.2.1 _ hm⟩

/-- Lookup after a conditional map that preserves ids: the first row matching
the id in the mapped list is the image of the first matching row. -/
theorem find?_map_update (l : List WordRecord) (wid : Nat)
    (f : WordRecord → WordRecord) (hf : ∀ w, (f w).id = w.id) :
    (l.map (fun w => if w.id == wid then f w else w)).find?
        (fun w => w.id == wid) =
      (l.find? (fun w => w.id == wid)).map f := by
  induction l with
  | nil => rfl
  | cons w l ih =>
    simp only [List.map_cons, List.find?_cons]
    by_cases hw : w.id = wid
    · have hb : (w.id == wid) = true := by simpa using hw
      rw [if_pos hb]
      simp [hf, hb]
    · have hb : (w.id == wid) = false := by simpa using hw
      rw [if_neg (by simp [hb])]
      simp only [hb, cond_false]
      exact ih

/-- Image of a row under a successful `updateWord` lookup: when the update
function preserves ids, looking up the updated id returns the image of the
previously found row. -/
theorem findWord_updateWord {f : WordRecord → WordRecord}
    (hf : ∀ w, (f w).id = w.id) (db : DB) (wid : Nat) :
    findWord (updateWord db wid f) wid = (findWord db wid).map f :=
  find?_map_update db.words wid f hf

/-- C8: when a first flag call actually records a flag (the word exists in a
flaggable status below the ceiling, no flag record exists for the pair, and
the fingerprint is under the global rate limit), it inserts the (word,
fingerprint) record and increments `flag_count` by exactly 1; an immediately
repeated call with the same pair changes nothing — neither the flag table nor
any word — so two calls change `flag_count` by exactly 1 in total. -/
theorem flag_idempotent_dedup (db : DB) (wid : Nat) (fp : String)
    (w : WordRecord) (hw : findWord db wid = some w)
    (hstat : ¬(w.status = .redacted ∨ w.status = .admin_removed))
    (hceil : w.flag_count < MAX_FLAG_COUNT)
    (hdup : (wid, fp) ∉ db.word_flags)
    (hrate : countFlagsBy db fp < FLAG_RATE_LIMIT) :
    (flagWord db wid fp).1 =
      some (w.flag_count + 1, computeOpacity (w.flag_count + 1))
  ∧ (flagWord db wid fp).2.word_flags = db.word_flags ++ [(wid, fp)]
  ∧ findWord (flagWord db wid fp).2 wid = some (flaggedOnce w)
  ∧ (flagWord (flagWord db wid fp).2 wid fp).2 = (flagWord db wid fp).2 := by
  rcases not_or.mp hstat with ⟨hs1, hs2⟩
  have hany : db.word_flags.any (fun p => p.1 == wid && p.2 == fp) = false := by
    simp only [List.any_eq_false]
    rintro ⟨a, b⟩ hab
    simp only [Bool.and_eq_true, beq_iff_eq, not_and]
    rintro rfl rfl
    exact hdup hab
  have hmin : min (w.flag_count + 1) MAX_FLAG_COUNT = w.flag_count + 1 :=
    min_eq_left (by omega)
  have hcond1 : ¬((w.status == WordStatus.redacted ||
      w.status == WordStatus.admin_removed) = true) := by
    simp [hs1, hs2]
  have hfirst : flagWord db wid fp =
      (some (w.flag_count + 1, computeOpacity (w.flag_count + 1)),
       updateWord { db with word_flags := db.word_flags ++ [(wid, fp)] } wid
         (flagBump w)) := by
    simp only [flagWord, hw]
    rw [if_neg hcond1, if_neg (not_le.mpr hceil)]
    rw [if_neg (by simp [hany]), if_neg (not_le.mpr hrate), hmin]
    rfl
  have hflags : (flagWord db wid fp).2.word_flags = db.word_flags ++ [(wid, fp)] := by
    rw [hfirst]
    simp [updateWord]
  have hfind : findWord (flagWord db wid fp).2 wid = some (flaggedOnce w) := by
    rw [hfirst]
    have hmap := findWord_updateWord (f := flagBump w) (fun x => rfl)
      { db with word_flags := db.word_flags ++ [(wid, fp)] } wid
    have hw2 : findWord { db with word_flags := db.word_flags ++ [(wid, fp)] } wid =
        some w := hw
    rw [hmap, hw2]
    simp [flagBump, flaggedOnce, hmin]
  refine ⟨by rw [hfirst], hflags, hfind, ?_⟩
  have hstat2 : ¬((flaggedOnce w).status == WordStatus.redacted ||
      (flaggedOnce w).status == WordStatus.admin_removed) = true := by
    unfold flaggedOnce
    by_cases hv : w.status = .visible <;> simp [hv, hs1, hs2]
  have hsecond : ∀ d : DB, findWord d wid = some (flaggedOnce w) →
      d.word_flags = db.word_flags ++ [(wid, fp)] →
      (flagWord d wid fp).2 = d := by
    intro d hd hdf
    simp only [flagWord, hd]
    rw [if_neg hstat2]
    by_cases h20 : MAX_FLAG_COUNT ≤ (flaggedOnce w).flag_count
    · rw [if_pos h20]
    · rw [if_neg h20]
      have hmem : d.word_flags.any (fun p => p.1 == wid && p.2 == fp) = true := by
        rw [hdf]
        simp
      rw [if_pos hmem]
  exact hsecond _ hfind hflags

/-- Witness for C8 on the visible example word: the first flag increments the
count to 1 and records the pair, the second call leaves the state untouched. -/
theorem flag_idempotent_dedup_witness :
    (flagWord exDB 1 "fp").1 = some (1, computeOpacity 1)
  ∧ (flagWord exDB 1 "fp").2.word_flags = [(1, "fp")]
  ∧ (flagWord (flagWord exDB 1 "fp").2 1 "fp").2 = (flagWord exDB 1 "fp").2 := by
  have h := flag_idempotent_dedup exDB 1 "fp" exVisible (by decide) (by decide)
    (by decide) (by decide) (by decide)
  exact ⟨h.1, h.2.1, h.2.2.2⟩

/-- Bounds of a mapped word list: when the image of every row satisfies the
flag-count bounds, so does every member of the mapped list. -/
theorem flagBounds_of_map {l : List WordRecord} {g : WordRecord → WordRecord}
    (hg : ∀ w ∈ l, 0 ≤ (g w).flag_count ∧ (g w).flag_count ≤ MAX_FLAG_COUNT) :
    ∀ w' ∈ l.map g, 0 ≤ w'.flag_count ∧ w'.flag_count ≤ MAX_FLAG_COUNT := by
  intro w' hw'
  rcases List.mem_map.mp hw' with ⟨w, hm, rfl⟩
  exact hg w hm

/-- Preservation of the flag-count bounds by one ledger operation. -/
theorem applyOp_flagInv (db : DB) (op : LedgerOp) (h : FlagInv db) :
    FlagInv (applyOp db op) := by
  cases op with
  | createPending content pi =>
    intro w hw
    simp only [applyOp, createPendingWord] at hw
    rcases List.mem_append.mp hw with h1 | h1
    · exact h w h1
    · rcases List.mem_singleton.mp h1 with rfl
      exact ⟨le_refl 0, by norm_num [MAX_FLAG_COUNT]⟩
  | publish wid =>
    simp only [applyOp, publishWord]
    split
    · intro w hw
      refine flagBounds_of_map (fun w0 hm => ?_) w hw
      split
      · exact h w0 hm
      · exact h w0 hm
    · exact h
  | userFlag wid fp =>
    rcases hfw : findWord db wid with _ | word
    · simp only [applyOp, flagWord, hfw]
      exact h
    · simp only [applyOp, flagWord, hfw]
      split_ifs <;> first
        | exact h
        | (intro w hw
           simp only [updateWord] at hw
           refine flagBounds_of_map (fun w0 hm => ?_) w hw
           split
           · refine ⟨?_, ?_⟩
             · show (0:Int) ≤ (w0.flag_count + 1) ⊓ MAX_FLAG_COUNT
               have h0 := (h w0 hm).1
               exact le_min (by omega) (by norm_num [MAX_FLAG_COUNT])
             · show (w0.flag_count + 1) ⊓ MAX_FLAG_COUNT ≤ MAX_FLAG_COUNT
               exact min_le_right _ _
           · exact h w0 hm)
  | adminFlag wid =>
    rcases hfw : findWord db wid with _ | word
    · simp only [applyOp, adminFlagWord, hfw]
      exact h
    · simp only [applyOp, adminFlagWord, hfw]
      split_ifs <;>
        (intro w hw
         simp only [updateWord] at hw
         refine flagBounds_of_map (fun w0 hm => ?_) w hw
         split
         · refine ⟨?_, ?_⟩
           · show (0:Int) ≤ (w0.flag_count + 1) ⊓ MAX_FLAG_COUNT
             have h0 := (h w0 hm).1
             exact le_min (by omega) (by norm_num [MAX_FLAG_COUNT])
           · show (w0.flag_count + 1) ⊓ MAX_FLAG_COUNT ≤ MAX_FLAG_COUNT
             exact min_le_right _ _
         · exact h w0 hm)
  | adminUnflag wid =>
    rcases hfw : findWord db wid with _ | word
    · simp only [applyOp, adminUnflagWord, hfw]
      exact h
    · have hword := findWord_mem hfw
      have hb := h word hword.1
      simp only [applyOp, adminUnflagWord, hfw]
      split_ifs <;> first
        | exact h
        | (intro w hw
           simp only [updateWord] at hw
           refine flagBounds_of_map (fun w0 hm => ?_) w hw
           split
           · refine ⟨?_, ?_⟩
             · show (0:Int) ≤ word.flag_count - 1
               omega
             · show word.flag_count - 1 ≤ MAX_FLAG_COUNT
               omega
           · exact h w0 hm)
  | userRedact wid =>
    rcases hfw : findWord db wid with _ | word
    · simp only [applyOp, redactWord, hfw]
      exact h
    · simp only [applyOp, redactWord, hfw]
      split_ifs <;> try exact h
      intro w hw
      simp only [updateWord] at hw
      refine flagBounds_of_map (fun w0 hm => ?_) w hw
      split
      · exact ⟨le_refl 0, by norm_num [MAX_FLAG_COUNT]⟩
      · exact h w0 hm
  | userUncover wid =>
    rcases hfw : findWord db wid with _ | word
    · simp only [applyOp, uncoverWord, hfw]
      exact h
    · simp only [applyOp, uncoverWord, hfw]
      split_ifs <;> try exact h
      intro w hw
      simp only [updateWord] at hw
      refine flagBounds_of_map (fun w0 hm => ?_) w hw
      split
      · exact ⟨le_refl 0, by norm_num [MAX_FLAG_COUNT]⟩
      · exact h w0 hm
  | adminUncover wid =>
    rcases hfw : findWord db wid with _ | word
    · simp only [applyOp, adminUncoverWord, hfw]
      exact h
    · simp only [applyOp, adminUncoverWord, hfw]
      split_ifs <;> try exact h
      intro w hw
      simp only [updateWord] at hw
      refine flagBounds_of_map (fun w0 hm => ?_) w hw
      split
      · exact ⟨le_refl 0, by norm_num [MAX_FLAG_COUNT]⟩
      · exact h w0 hm
  | adminRedact wid =>
    rcases hfw : findWord db wid with _ | word
    · simp only [applyOp, adminRedactWord, hfw]
      exact h
    · simp only [applyOp, adminRedactWord, hfw]
      intro w hw
      simp only [updateWord] at hw
      refine flagBounds_of_map (fun w0 hm => ?_) w hw
      split
      · exact ⟨le_refl 0, by norm_num [MAX_FLAG_COUNT]⟩
      · exact h w0 hm
  | adminRemove wid =>
    rcases hfw : findWord db wid with _ | word
    · simp only [applyOp, adminRemoveWord, hfw]
      exact h
    · simp only [applyOp, adminRemoveWord, hfw]
      intro w hw
      simp only [updateWord] at hw
      refine flagBounds_of_map (fun w0 hm => ?_) w hw
      split
      · exact ⟨le_refl 0, by norm_num [MAX_FLAG_COUNT]⟩
      · exact h w0 hm
  | adminRestore wid =>
    rcases hfw : findWord db wid with _ | word
    · simp only [applyOp, adminRestoreWord, hfw]
      exact h
    · simp only [applyOp, adminRestoreWord, hfw]
      split_ifs <;> try exact h
      intro w hw
      simp only [updateWord] at hw
      refine flagBounds_of_map (fun w0 hm => ?_) w hw
      split
      · exact ⟨le_refl 0, by norm_num [MAX_FLAG_COUNT]⟩
      · exact h w0 hm
  | adminWrite content =>
    intro w hw
    simp only [applyOp, adminWriteWord] at hw
    rcases List.mem_append.mp hw with h1 | h1
    · exact h w h1
    · rcases List.mem_singleton.mp h1 with rfl
      exact ⟨le_refl 0, by norm_num [MAX_FLAG_COUNT]⟩
  | adminDelete wid =>
    rcases hfw : findWord db wid with _ | word
    · simp only [applyOp, adminDeleteWord, hfw]
      exact h
    · simp only [applyOp, adminDeleteWord, hfw]
      intro w hw
      exact h w (List.mem_of_mem_filter hw)

/-- Preservation of the flag-count bounds by any operation sequence. -/
theorem foldl_applyOp_flagInv (ops : List LedgerOp) (db : DB) (h : FlagInv db) :
    FlagInv (ops.foldl applyOp db) := by
  induction ops generalizing db with
  | nil => exact h
  | cons op ops ih => exact ih _ (applyOp_flagInv db op h)

/-- Reset of the target's counter by an update whose function zeroes the
count and preserves ids. -/
theorem updateWord_target_flag_zero {db : DB} {wid : Nat}
    {f : WordRecord → WordRecord}
    (hf : ∀ w, (f w).flag_count = 0 ∧ (f w).id = w.id) :
    ∀ w' ∈ (updateWord db wid f).words, w'.id = wid → w'.flag_count = 0 := by
  intro w' hw' hid
  simp only [updateWord] at hw'
  rcases List.mem_map.mp hw' with ⟨w, hm, rfl⟩
  by_cases hc : (w.id == wid) = true
  · rw [if_pos hc]
    exact (hf w).1
  · rw [if_neg hc] at hid ⊢
    exact absurd hid (by simpa using hc)

/-- C9: under every sequence of ledger operations, every word's `flag_count`
stays in [0, 20]; the user flag returns the current count with no state
change once the ceiling is reached; the admin unflag refuses to decrement a
zero counter; and redact, uncover, admin redact, admin remove and restore
reset the target's counter to 0. -/
theorem flag_count_in_range (db : DB) (ops : List LedgerOp) (hinv : FlagInv db) :
    FlagInv (ops.foldl applyOp db)
  ∧ (∀ wid fp w, findWord db wid = some w →
      ¬(w.status = .redacted ∨ w.status = .admin_removed) →
      MAX_FLAG_COUNT ≤ w.flag_count →
      flagWord db wid fp = (some (w.flag_count, computeOpacity w.flag_count), db))
  ∧ (∀ wid w, findWord db wid = some w → w.flag_count ≤ 0 →
      adminUnflagWord db wid = (db, false))
  ∧ (∀ wid, (redactWord db wid).2 = true →
      ∀ w ∈ (redactWord db wid).1.words, w.id = wid → w.flag_count = 0)
  ∧ (∀ wid, (uncoverWord db wid).2 = true →
      ∀ w ∈ (uncoverWord db wid).1.words, w.id = wid → w.flag_count = 0)
  ∧ (∀ wid, (adminRedactWord db wid).2 = true →
      ∀ w ∈ (adminRedactWord db wid).1.words, w.id = wid → w.flag_count = 0)
  ∧ (∀ wid, (adminRemoveWord db wid).2 = true →
      ∀ w ∈ (adminRemoveWord db wid).1.words, w.id = wid → w.flag_count = 0)
  ∧ (∀ wid, (adminRestoreWord db wid).2 = true →
      ∀ w ∈ (adminRestoreWord db wid).1.words, w.id = wid → w.flag_count = 0) := by
  refine ⟨foldl_applyOp_flagInv ops db hinv, ?_, ?_, ?_, ?_, ?_, ?_, ?_⟩
  · intro wid fp w hfw hst hge
    rcases not_or.mp hst with ⟨hs1, hs2⟩
    simp only [flagWord, hfw]
    rw [if_neg (by simp [hs1, hs2]), if_pos hge]
  · intro wid w hfw hle
    simp only [adminUnflagWord, hfw]
    rw [if_pos hle]
  · intro wid hs
    rcases hfw : findWord db wid with _ | word <;>
      simp only [redactWord, hfw] at hs ⊢
    · simp at hs
    · split_ifs at hs ⊢ with hcond <;> first
        | exact updateWord_target_flag_zero (fun w => ⟨rfl, rfl⟩)
        | simp at hs
  · intro wid hs
    rcases hfw : findWord db wid with _ | word <;>
      simp only [uncoverWord, hfw] at hs ⊢
    · simp at hs
    · split_ifs at hs ⊢ with hcond <;> first
        | exact updateWord_target_flag_zero (fun w => ⟨rfl, rfl⟩)
        | simp at hs
  · intro wid hs
    rcases hfw : findWord db wid with _ | word <;>
      simp only [adminRedactWord, hfw] at hs ⊢
    · simp at hs
    · exact updateWord_target_flag_zero (fun w => ⟨rfl, rfl⟩)
  · intro wid hs
    rcases hfw : findWord db wid with _ | word <;>
      simp only [adminRemoveWord, hfw] at hs ⊢
    · simp at hs
    · exact updateWord_target_flag_zero (fun w => ⟨rfl, rfl⟩)
  · intro wid hs
    rcases hfw : findWord db wid with _ | word <;>
      simp only [adminRestoreWord, hfw] at hs ⊢
    · simp at hs
    · split_ifs at hs ⊢ with hcond <;> first
        | exact updateWord_target_flag_zero (fun w => ⟨rfl, rfl⟩)
        | simp at hs

/-- Witness for C9: a concrete operation sequence (flags from two
fingerprints, an admin flag, a redact, an uncover and an unflag) keeps every
flag count within [0, 20] on the example database. -/
theorem flag_count_in_range_witness :
    FlagInv ([LedgerOp.userFlag 1 "fpA", LedgerOp.userFlag 1 "fpB",
      LedgerOp.adminFlag 1, LedgerOp.userRedact 1, LedgerOp.userUncover 1,
      LedgerOp.adminUnflag 2].foldl applyOp exDB)
  ∧ flagWord exDB 2 "fpA" = (none, exDB) := by
  have h := flag_count_in_range exDB [LedgerOp.userFlag 1 "fpA",
    LedgerOp.userFlag 1 "fpB", LedgerOp.adminFlag 1, LedgerOp.userRedact 1,
    LedgerOp.userUncover 1, LedgerOp.adminUnflag 2]
    (by unfold FlagInv; decide)
  exact ⟨h.1, by decide⟩

/-- Positions of the list after a publish update: every member either was a
position before or is the freshly drawn sequence value. -/
theorem mem_positions_publish_update {l : List WordRecord} {wid n p : Nat}
    (hp : p ∈ (l.map (fun w =>
        if w.id == wid && w.status == WordStatus.pending
        then { w with status := WordStatus.visible, position := some (n+1) }
        else w)).filterMap (fun w => w.position)) :
    p ∈ l.filterMap (fun w => w.position) ∨ p = n + 1 := by
  rcases List.mem_filterMap.mp hp with ⟨w', hw', hpos⟩
  rcases List.mem_map.mp hw' with ⟨w, hw, rfl⟩
  by_cases hc : (w.id == wid && w.status == WordStatus.pending) = true
  · rw [if_pos hc] at hpos
    right
    simpa using hpos.symm
  · rw [if_neg hc] at hpos
    exact Or.inl (List.mem_filterMap.mpr ⟨w, hw, hpos⟩)

/-- Distinctness of positions is preserved by a publish update drawing a
fresh sequence value, given unique ids and sequence-bounded positions. -/
theorem nodup_positions_publish {l : List WordRecord} {wid n : Nat}
    (hid : (l.map (fun w => w.id)).Nodup)
    (hbd : ∀ w ∈ l, w.position.getD 0 ≤ n)
    (hnd : (l.filterMap (fun w => w.position)).Nodup) :
    ((l.map (fun w =>
        if w.id == wid && w.status == WordStatus.pending
        then { w with status := WordStatus.visible, position := some (n+1) }
        else w)).filterMap (fun w => w.position)).Nodup := by
  induction l with
  | nil => simp
  | cons w t ih =>
    have hidt : (t.map (fun w => w.id)).Nodup := (List.nodup_cons.mp hid).2
    have hwid_not : w.id ∉ t.map (fun w => w.id) := (List.nodup_cons.mp hid).1
    have hbdt : ∀ x ∈ t, x.position.getD 0 ≤ n :=
      fun x hx => hbd x (List.mem_cons_of_mem _ hx)
    have hndt : (t.filterMap (fun w => w.position)).Nodup := by
      rcases hwp : w.position with _ | p
      · rw [List.filterMap_cons_none (by simpa using hwp)] at hnd
        exact hnd
      · rw [List.filterMap_cons_some (by simpa using hwp)] at hnd
        exact (List.nodup_cons.mp hnd).2
    simp only [List.map_cons]
    by_cases hc : (w.id == wid && w.status == WordStatus.pending) = true
    · rw [if_pos hc]
      have hteq : t.map (fun x =>
          if x.id == wid && x.status == WordStatus.pending
          then { x with status := WordStatus.visible, position := some (n+1) }
          else x) = t := by
        have hpt : ∀ x ∈ t, (if x.id == wid && x.status == WordStatus.pending
            then { x with status := WordStatus.visible, position := some (n+1) }
            else x) = x := by
          intro x hx
          have hxid : ¬x.id = wid := by
            intro he
            apply hwid_not
            have hwidw : w.id = wid := by
              have := (Bool.and_eq_true _ _).mp hc
              simpa using this.1
            rw [hwidw, ← he]
            exact List.mem_map_of_mem (fun w => w.id) hx
          rw [if_neg (by simp [hxid])]
        calc t.map _ = t.map id := List.map_congr_left hpt
        _ = t := List.map_id t
      rw [hteq]
      have hhead :
          ({ w with status := WordStatus.visible, position := some (n+1) } :
            WordRecord).position = some (n+1) := rfl
      rw [List.filterMap_cons_some hhead]
      refine List.nodup_cons.mpr ⟨?_, hndt⟩
      intro hmem
      rcases List.mem_filterMap.mp hmem with ⟨x, hx, hxp⟩
      have hxb := hbdt x hx
      rw [hxp] at hxb
      simp at hxb
    · rw [if_neg hc]
      rcases hwp : w.position with _ | p
      · rw [List.filterMap_cons_none (by simpa using hwp)]
        exact ih hidt hbdt hndt
      · rw [List.filterMap_cons_some (by simpa using hwp)]
        refine List.nodup_cons.mpr ⟨?_, ih hidt hbdt hndt⟩
        intro hmem
        rcases mem_positions_publish_update hmem with hold | hnew
        · rw [List.filterMap_cons_some (by simpa using hwp)] at hnd
          exact (List.nodup_cons.mp hnd).1 hold
        · have hwb := hbd w (List.mem_cons_self _ _)
          rw [hwp] at hwb
          simp at hwb
          omega

/-- Preservation of the ledger invariant by `createPendingWord`. -/
theorem createPendingWord_inv (db : DB) (content pi : String)
    (hinv : LedgerInv db) : LedgerInv (createPendingWord db content pi).2 := by
  obtain ⟨hidn, hidb, hpn, hpb⟩ := hinv
  refine ⟨?_, ?_, ?_, ?_⟩
  · unfold IdsNodup createPendingWord
    simp only [List.map_append, List.map_cons, List.map_nil]
    rw [List.nodup_append]
    refine ⟨hidn, List.nodup_singleton _, ?_⟩
    intro a ha hb
    rcases List.mem_singleton.mp hb with rfl
    rcases List.mem_map.mp ha with ⟨w, hw, he⟩
    exact absurd he (Nat.ne_of_lt (hidb w hw))
  · intro w hw
    simp only [createPendingWord] at hw
    rcases List.mem_append.mp hw with h1 | h1
    · exact Nat.lt_succ_of_lt (hidb w h1)
    · rcases List.mem_singleton.mp h1 with rfl
      exact Nat.lt_succ_self _
  · unfold PositionsNodup createPendingWord
    simp only [List.filterMap_append]
    simpa using hpn
  · intro w hw
    simp only [createPendingWord] at hw
    rcases List.mem_append.mp hw with h1 | h1
    · exact hpb w h1
    · rcases List.mem_singleton.mp h1 with rfl
      simp

/-- Preservation of the ledger invariant by `publishWord`. -/
theorem publishWord_inv (db : DB) (wid : Nat) (hinv : LedgerInv db) :
    LedgerInv (publishWord db wid) := by
  obtain ⟨hidn, hidb, hpn, hpb⟩ := hinv
  unfold publishWord
  split
  · refine ⟨?_, ?_, ?_, ?_⟩
    · unfold IdsNodup
      simp only [List.map_map]
      have hcomp : ((fun w => w.id) ∘ (fun w =>
          if (w.id == wid && w.status == WordStatus.pending) = true
          then { w with
                   status := WordStatus.visible
                   position := some (db.posSeq + 1) }
          else w)) = fun (w : WordRecord) => w.id := by
        funext w
        by_cases hc : (w.id == wid && w.status == WordStatus.pending) = true
        · simp [Function.comp, hc]
        · simp [Function.comp, hc]
      rw [hcomp]
      exact hidn
    · intro w hw
      rcases List.mem_map.mp hw with ⟨w0, hm, rfl⟩
      split
      · exact hidb w0 hm
      · exact hidb w0 hm
    · exact nodup_positions_publish hidn hpb hpn
    · intro w hw
      rcases List.mem_map.mp hw with ⟨w0, hm, rfl⟩
      split
      · simp
      · exact le_trans (hpb w0 hm) (Nat.le_succ _)
  · exact ⟨hidn, hidb, hpn, hpb⟩

/-- Preservation of the ledger invariant along any publish-path sequence. -/
theorem foldl_publish_path_inv : ∀ (ops : List LedgerOp) (db : DB),
    (∀ op ∈ ops, isPublishPathOp op = true) → LedgerInv db →
    LedgerInv (ops.foldl applyOp db) := by
  intro ops
  induction ops with
  | nil => exact fun db _ hinv => hinv
  | cons op ops ih =>
    intro db hops hinv
    have hop := hops op (List.mem_cons_self _ _)
    have hrest : ∀ o ∈ ops, isPublishPathOp o = true :=
      fun o ho => hops o (List.mem_cons_of_mem _ ho)
    cases op with
    | createPending c pi =>
      exact ih _ hrest (createPendingWord_inv db c pi hinv)
    | publish wid =>
      exact ih _ hrest (publishWord_inv db wid hinv)
    | userFlag wid fp => simp [isPublishPathOp] at hop
    | adminFlag wid => simp [isPublishPathOp] at hop
    | adminUnflag wid => simp [isPublishPathOp] at hop
    | userRedact wid => simp [isPublishPathOp] at hop
    | userUncover wid => simp [isPublishPathOp] at hop
    | adminUncover wid => simp [isPublishPathOp] at hop
    | adminRedact wid => simp [isPublishPathOp] at hop
    | adminRemove wid => simp [isPublishPathOp] at hop
    | adminRestore wid => simp [isPublishPathOp] at hop
    | adminWrite c => simp [isPublishPathOp] at hop
    | adminDelete wid => simp [isPublishPathOp] at hop

/-- C3: starting from a state satisfying the ledger invariant (unique ids,
ids drawn from the supply, pairwise-distinct positions, positions drawn from
the sequence), any sequence of word creations and publishes keeps all
assigned positions pairwise distinct; a creation never assigns a position;
and a publish of a pending word assigns exactly the next value of the single
position sequence at the moment of the transition. -/
theorem publish_positions_unique (db : DB) (ops : List LedgerOp)
    (hops : ∀ op ∈ ops, isPublishPathOp op = true) (hinv : LedgerInv db) :
    PositionsNodup (ops.foldl applyOp db)
  ∧ LedgerInv (ops.foldl applyOp db)
  ∧ (∀ content pi w, w ∈ ((createPendingWord db content pi).2).words →
      w.id = db.nextId → w.position = none)
  ∧ (∀ wid w, findWord db wid = some w → w.status = .pending →
      findWord (publishWord db wid) wid =
        some { w with status := .visible, position := some (db.posSeq + 1) }) := by
  have hfold := foldl_publish_path_inv ops db hops hinv
  refine ⟨hfold.2.2.1, hfold, ?_, ?_⟩
  · intro content pi w hw hid
    simp only [createPendingWord] at hw
    rcases List.mem_append.mp hw with h1 | h1
    · exact absurd hid (Nat.ne_of_lt (hinv.2.1 w h1))
    · rcases List.mem_singleton.mp h1 with rfl
      rfl
  · intro wid w hfw hp
    have hin := findWord_mem hfw
    have hany : db.words.any
        (fun x => x.id == wid && x.status == WordStatus.pending) = true :=
      List.any_eq_true.mpr ⟨w, hin.1, by simp [hin.2, hp]⟩
    unfold publishWord
    rw [if_pos hany]
    unfold findWord at hfw ⊢
    simp only [List.find?_map]
    have hcomp : ((fun (x : WordRecord) => x.id == wid) ∘ (fun w =>
        if (w.id == wid && w.status == WordStatus.pending) = true
        then { w with
                 status := WordStatus.visible
                 position := some (db.posSeq + 1) }
        else w)) = fun (x : WordRecord) => x.id == wid := by
      funext x
      by_cases hc : (x.id == wid && x.status == WordStatus.pending) = true
      · simp [Function.comp, hc]
      · simp [Function.comp, hc]
    rw [hcomp, hfw]
    simp [hin.2, hp]

/-- Witness for C3: two creations and two publishes on the example database
keep positions distinct, and publishing the pending example word stamps it
with the next sequence value. -/
theorem publish_positions_unique_witness :
    PositionsNodup ([LedgerOp.createPending "hi" "pi_1", LedgerOp.publish 6,
      LedgerOp.createPending "yo" "pi_1", LedgerOp.publish 7].foldl applyOp exDB)
  ∧ findWord (publishWord exDB 5) 5 =
      some { exPendingW with status := .visible, position := some 5 } := by
  have h := publish_positions_unique exDB
    [LedgerOp.createPending "hi" "pi_1", LedgerOp.publish 6,
     LedgerOp.createPending "yo" "pi_1", LedgerOp.publish 7]
    (by decide)
    (by unfold LedgerInv IdsNodup IdsBounded PositionsNodup PositionsBounded
        refine ⟨by decide, by decide, by decide, by decide⟩)
  exact ⟨h.1, h.2.2.2 5 exPendingW (by decide) rfl⟩

/-- Decomposition of one webhook loop iteration into ledger effect, result
entries and refund contribution. -/
theorem processAction_decomp (pi : String) (st : ProcState) (a : CartAction) :
    processAction pi st a =
      { db := (applyCartAction pi st.db a).1
        results := st.results ++ oneResult st.db a
        refundTotal := st.refundTotal + oneRefund pi st.db a } := by
  rcases ht : a.type
  case write =>
    by_cases hc : truthy a.wordContent = true
    · simp [processAction, applyCartAction, oneResult, oneRefund,
        createPendingWord, ht, hc]
    · simp only [processAction, applyCartAction, oneResult, oneRefund, ht,
        hc, Bool.false_and, Bool.not_false, Bool.true_and, if_false]
      by_cases hp : (0:Int) < a.price <;> simp [hp, hc]
  case redact =>
    rcases hw : a.wordId with _ | wid
    · simp only [processAction, applyCartAction, oneResult, oneRefund, ht, hw]
      by_cases hp : (0:Int) < a.price <;> simp [hp]
    · rcases hre : redactWord st.db wid with ⟨db1, ok⟩
      simp only [processAction, applyCartAction, oneResult, oneRefund, ht, hw, hre]
      rcases ok with _ | _ <;>
        by_cases hp : (0:Int) < a.price <;> simp [hp]
  case uncover =>
    rcases hw : a.wordId with _ | wid
    · simp only [processAction, applyCartAction, oneResult, oneRefund, ht, hw]
      by_cases hp : (0:Int) < a.price <;> simp [hp]
    · rcases hre : uncoverWord st.db wid with ⟨db1, ok⟩
      simp only [processAction, applyCartAction, oneResult, oneRefund, ht, hw, hre]
      rcases ok with _ | _ <;>
        by_cases hp : (0:Int) < a.price <;> simp [hp]
  case flag =>
    simp only [processAction, applyCartAction, oneResult, oneRefund, ht]
    by_cases hp : (0:Int) < a.price <;> simp [hp]

/-- Decomposition of the whole webhook loop: final ledger, result list and
refund total of the fold, expressed by the replay recursions. -/
theorem foldl_processAction_decomp (pi : String) :
    ∀ (actions : List CartAction) (st : ProcState),
    actions.foldl (processAction pi) st =
      { db := replayActions pi st.db actions
        results := st.results ++ resultsOf pi st.db actions
        refundTotal := st.refundTotal + refundOf pi st.db actions } := by
  intro actions
  induction actions with
  | nil =>
    intro st
    simp [replayActions, resultsOf, refundOf]
  | cons a rest ih =>
    intro st
    rw [List.foldl_cons, processAction_decomp, ih]
    simp [replayActions, resultsOf, refundOf, List.append_assoc, add_assoc]

/-- Frame of one cart action: the ledger replay touches only words, the id
supply and the position sequence — never checkouts, flags, intents or
refunds. -/
theorem applyCartAction_frame (pi : String) (db : DB) (a : CartAction) :
    (applyCartAction pi db a).1.checkouts = db.checkouts
  ∧ (applyCartAction pi db a).1.refunds = db.refunds
  ∧ (applyCartAction pi db a).1.word_flags = db.word_flags
  ∧ (applyCartAction pi db a).1.payment_intents = db.payment_intents := by
  rcases ht : a.type
  case write =>
    by_cases hc : truthy a.wordContent = true
    · simp only [applyCartAction, ht, hc, if_true]
      unfold publishWord createPendingWord
      split <;> simp
    · simp [applyCartAction, ht, hc]
  case redact =>
    rcases hw : a.wordId with _ | wid
    · simp [applyCartAction, ht, hw]
    · simp only [applyCartAction, ht, hw]
      unfold redactWord
      rcases hfw : findWord db wid with _ | word <;> simp only [hfw]
      · simp
      · split_ifs <;> simp [updateWord]
  case uncover =>
    rcases hw : a.wordId with _ | wid
    · simp [applyCartAction, ht, hw]
    · simp only [applyCartAction, ht, hw]
      unfold uncoverWord
      rcases hfw : findWord db wid with _ | word <;> simp only [hfw]
      · simp
      · split_ifs <;> simp [updateWord]
  case flag => simp [applyCartAction, ht]

/-- Frame of the whole replay. -/
theorem replayActions_frame (pi : String) :
    ∀ (actions : List CartAction) (db : DB),
    (replayActions pi db actions).checkouts = db.checkouts
  ∧ (replayActions pi db actions).refunds = db.refunds
  ∧ (replayActions pi db actions).word_flags = db.word_flags
  ∧ (replayActions pi db actions).payment_intents = db.payment_intents := by
  intro actions
  induction actions with
  | nil => intro db; simp [replayActions]
  | cons a rest ih =>
    intro db
    have h1 := applyCartAction_frame pi db a
    have h2 := ih (applyCartAction pi db a).1
    unfold replayActions
    refine ⟨?_, ?_, ?_, ?_⟩
    · rw [h2.1, h1.1]
    · rw [h2.2.1, h1.2.1]
    · rw [h2.2.2.1, h1.2.2.1]
    · rw [h2.2.2.2, h1.2.2.2]

/-- Lookup after a conditional checkout map that preserves the payment
intent: the first matching row of the mapped list is the image of the first
matching row. -/
theorem find?_map_updateCheckout (l : List Checkout) (pi : String)
    (f : Checkout → Checkout)
    (hf : ∀ c, (f c).stripe_payment_intent_id = c.stripe_payment_intent_id) :
    (l.map (fun c => if c.stripe_payment_intent_id == pi then f c else c)).find?
        (fun c => c.stripe_payment_intent_id == pi) =
      (l.find? (fun c => c.stripe_payment_intent_id == pi)).map f := by
  induction l with
  | nil => rfl
  | cons c l ih =>
    simp only [List.map_cons, List.find?_cons]
    by_cases hc : c.stripe_payment_intent_id = pi
    · have hb : (c.stripe_payment_intent_id == pi) = true := by simpa using hc
      rw [if_pos hb]
      simp [hf, hb]
    · have hb : (c.stripe_payment_intent_id == pi) = false := by simpa using hc
      rw [if_neg (by simp [hb])]
      simp only [hb, cond_false]
      exact ih

/-- Lookup of the updated payment intent after `updateCheckoutByPI`. -/
theorem findCheckout_update (db : DB) (pi : String) (f : Checkout → Checkout)
    (hf : ∀ c, (f c).stripe_payment_intent_id = c.stripe_payment_intent_id) :
    findCheckout (updateCheckoutByPI db pi f) pi = (findCheckout db pi).map f :=
  find?_map_updateCheckout db.checkouts pi f hf

/-- Characterization of a full webhook run on a pending checkout: mark
`processing`, replay the stored batch, issue the refund when positive and the
Stripe call succeeds, and persist the checkout as `completed` with the result
list and refund amount. -/
theorem handleWebhook_run (db : DB) (pi : String) (rOk : Bool) (c : Checkout)
    (hc : findCheckout db pi = some c) (hp : c.status = .pending) :
    handleWebhook db "payment_intent.succeeded" pi rOk =
      (updateCheckoutByPI
        (refundStep (replayActions pi (dbProcessing db pi) c.cart_actions) pi
          (refundOf pi (dbProcessing db pi) c.cart_actions) rOk)
        pi
        (markCompleted (resultsOf pi (dbProcessing db pi) c.cart_actions)
          (refundOf pi (dbProcessing db pi) c.cart_actions)),
       true) := by
  simp only [handleWebhook, hc]
  rw [if_neg (by simp), if_neg (by simp [hp])]
  rw [foldl_processAction_decomp]
  simp only [zero_add, List.nil_append]
  rfl

/-- Lookup of the checkout after a full webhook run: it is persisted as
`completed`, carrying the replayed result list and refund amount. -/
theorem findCheckout_handleWebhook_completed (db : DB) (pi : String)
    (rOk : Bool) (c : Checkout)
    (hc : findCheckout db pi = some c) (hp : c.status = .pending) :
    findCheckout (handleWebhook db "payment_intent.succeeded" pi rOk).1 pi =
      some (markCompleted (resultsOf pi (dbProcessing db pi) c.cart_actions)
        (refundOf pi (dbProcessing db pi) c.cart_actions)
        (markProcessing c)) := by
  rw [handleWebhook_run db pi rOk c hc hp]
  rw [show (updateCheckoutByPI
      (refundStep (replayActions pi (dbProcessing db pi) c.cart_actions) pi
        (refundOf pi (dbProcessing db pi) c.cart_actions) rOk)
      pi
      (markCompleted (resultsOf pi (dbProcessing db pi) c.cart_actions)
        (refundOf pi (dbProcessing db pi) c.cart_actions)),
     true).1 = updateCheckoutByPI
      (refundStep (replayActions pi (dbProcessing db pi) c.cart_actions) pi
        (refundOf pi (dbProcessing db pi) c.cart_actions) rOk)
      pi
      (markCompleted (resultsOf pi (dbProcessing db pi) c.cart_actions)
        (refundOf pi (dbProcessing db pi) c.cart_actions)) from rfl]
  rw [findCheckout_update _ _
    (markCompleted (resultsOf pi (dbProcessing db pi) c.cart_actions)
      (refundOf pi (dbProcessing db pi) c.cart_actions))
    (fun x => rfl)]
  have hck : (refundStep (replayActions pi (dbProcessing db pi) c.cart_actions)
      pi (refundOf pi (dbProcessing db pi) c.cart_actions) rOk).checkouts =
      (dbProcessing db pi).checkouts := by
    have hL := (replayActions_frame pi c.cart_actions (dbProcessing db pi)).1
    unfold refundStep
    split_ifs <;> simp [hL]
  unfold findCheckout at hc ⊢
  rw [hck]
  rw [show (dbProcessing db pi).checkouts =
    db.checkouts.map (fun x =>
      if x.stripe_payment_intent_id == pi then markProcessing x else x) from rfl]
  rw [find?_map_updateCheckout _ _ markProcessing (fun x => rfl), hc]
  rfl

/-- C1: a payment-succeeded delivery whose payment reference has no stored
checkout, or whose checkout has left `pending`, is acknowledged with no
change to any state (no ledger mutation, no refund, no checkout change);
consequently a second delivery of the same confirmation after a first
successful processing leaves the entire state unchanged. -/
theorem webhook_redelivery_inert (db : DB) (pi : String) (rOk rOk2 : Bool) :
    (findCheckout db pi = none →
      handleWebhook db "payment_intent.succeeded" pi rOk = (db, true))
  ∧ (∀ c, findCheckout db pi = some c → c.status ≠ .pending →
      handleWebhook db "payment_intent.succeeded" pi rOk = (db, true))
  ∧ (∀ c, findCheckout db pi = some c → c.status = .pending →
      handleWebhook (handleWebhook db "payment_intent.succeeded" pi rOk).1
        "payment_intent.succeeded" pi rOk2 =
        ((handleWebhook db "payment_intent.succeeded" pi rOk).1, true)) := by
  refine ⟨?_, ?_, ?_⟩
  · intro hnone
    simp [handleWebhook, hnone]
  · intro c hcc hns
    simp [handleWebhook, hcc, hns]
  · intro c hcc hp
    have hdone := findCheckout_handleWebhook_completed db pi rOk c hcc hp
    generalize hgen : (handleWebhook db "payment_intent.succeeded" pi rOk).1 = d1 at hdone ⊢
    simp [handleWebhook, hdone, markCompleted]

/-- Witness for C1 on the example state: an unknown payment reference is
inert, a delivery for the stored pending checkout completes it, and the
redelivery returns the state unchanged. -/
theorem webhook_redelivery_inert_witness :
    handleWebhook exDBC "payment_intent.succeeded" "pi_nope" true = (exDBC, true)
  ∧ handleWebhook (handleWebhook exDBC "payment_intent.succeeded" "pi_1" true).1
      "payment_intent.succeeded" "pi_1" true =
      ((handleWebhook exDBC "payment_intent.succeeded" "pi_1" true).1, true) := by
  have h := webhook_redelivery_inert exDBC "pi_nope" true true
  have h2 := webhook_redelivery_inert exDBC "pi_1" true true
  exact ⟨h.1 (by decide), h2.2.2 exCheckout (by decide) rfl⟩

/-- Refund total of a replay equals the sum of the declared prices of
exactly the positively-priced actions whose replay did not succeed. -/
theorem refundOf_eq_outcomes (pi : String) :
    ∀ (actions : List CartAction) (db : DB),
    refundOf pi db actions =
      (((actionOutcomes pi db actions).filter
        (fun p => !p.2 && decide ((0:Int) < p.1.price))).map
        (fun p => p.1.price)).sum := by
  intro actions
  induction actions with
  | nil => intro db; simp [refundOf, actionOutcomes]
  | cons a rest ih =>
    intro db
    rcases happ : applyCartAction pi db a with ⟨db1, ok⟩
    simp only [refundOf, actionOutcomes, oneRefund, happ]
    cases hcond : (!ok && decide ((0:Int) < a.price)) <;>
      simp [hcond, ih]

/-- Every failure entry in the replayed result list carries a reason. -/
theorem resultsOf_failure_reason (pi : String) :
    ∀ (actions : List CartAction) (db : DB) (r : ActionResult),
    r ∈ resultsOf pi db actions → r.success = false → r.reason.isSome = true := by
  intro actions
  induction actions with
  | nil => intro db r hr; simp [resultsOf] at hr
  | cons a rest ih =>
    intro db r hr hs
    simp only [resultsOf] at hr
    rcases List.mem_append.mp hr with h1 | h1
    · rcases ht : a.type
      case write =>
        by_cases hc : truthy a.wordContent = true
        · simp only [oneResult, ht, hc, if_true] at h1
          rcases List.mem_singleton.mp h1 with rfl
          simp at hs
        · simp [oneResult, ht, hc] at h1
      case redact =>
        rcases hw : a.wordId with _ | wid
        · simp [oneResult, ht, hw] at h1
        · simp only [oneResult, ht, hw] at h1
          rcases List.mem_singleton.mp h1 with rfl
          simp only at hs
          simp [hs]
      case uncover =>
        rcases hw : a.wordId with _ | wid
        · simp [oneResult, ht, hw] at h1
        · simp only [oneResult, ht, hw] at h1
          rcases List.mem_singleton.mp h1 with rfl
          simp only at hs
          simp [hs]
      case flag => simp [oneResult, ht] at h1
    · exact ih _ r h1 hs

/-- C2 (amended): processing a pending checkout always persists it as
`completed`, with the replayed per-action result list and a refund amount
equal to the sum of the declared prices of exactly those positively-priced
actions that did not succeed when replayed in submission order (actions of a
type other than write/redact/uncover and actions missing their required
field count as not succeeding but contribute no result entry); every
recorded failure carries a reason; and a refund-issuance failure changes
neither the ledger, the checkouts nor the flag table relative to a
successful issuance — it only leaves the refund unissued — so it does not
roll back mutations nor block completion. -/
theorem reconciliation_partial_refund (db : DB) (pi : String) (rOk : Bool)
    (c : Checkout) (hc : findCheckout db pi = some c)
    (hp : c.status = .pending) :
    findCheckout (handleWebhook db "payment_intent.succeeded" pi rOk).1 pi =
      some (markCompleted (resultsOf pi (dbProcessing db pi) c.cart_actions)
        (refundOf pi (dbProcessing db pi) c.cart_actions) (markProcessing c))
  ∧ refundOf pi (dbProcessing db pi) c.cart_actions =
      (((actionOutcomes pi (dbProcessing db pi) c.cart_actions).filter
        (fun p => !p.2 && decide ((0:Int) < p.1.price))).map
        (fun p => p.1.price)).sum
  ∧ (∀ r ∈ resultsOf pi (dbProcessing db pi) c.cart_actions,
      r.success = false → r.reason.isSome = true)
  ∧ (handleWebhook db "payment_intent.succeeded" pi false).1.words =
      (handleWebhook db "payment_intent.succeeded" pi true).1.words
  ∧ (handleWebhook db "payment_intent.succeeded" pi false).1.checkouts =
      (handleWebhook db "payment_intent.succeeded" pi true).1.checkouts
  ∧ (handleWebhook db "payment_intent.succeeded" pi false).1.word_flags =
      (handleWebhook db "payment_intent.succeeded" pi true).1.word_flags
  ∧ (handleWebhook db "payment_intent.succeeded" pi false).1.refunds =
      db.refunds := by
  have hrunF := handleWebhook_run db pi false c hc hp
  have hrunT := handleWebhook_run db pi true c hc hp
  have hLrefunds : (replayActions pi (dbProcessing db pi)
      c.cart_actions).refunds = db.refunds := by
    rw [(replayActions_frame pi c.cart_actions (dbProcessing db pi)).2.1]
    simp [dbProcessing, updateCheckoutByPI]
  refine ⟨findCheckout_handleWebhook_completed db pi rOk c hc hp,
    refundOf_eq_outcomes pi c.cart_actions _,
    fun r hr hs => resultsOf_failure_reason pi c.cart_actions _ r hr hs,
    ?_, ?_, ?_, ?_⟩
  · rw [hrunF, hrunT]
    simp only [updateCheckoutByPI, refundStep]
    split_ifs <;> rfl
  · rw [hrunF, hrunT]
    simp only [updateCheckoutByPI, refundStep]
    split_ifs <;> rfl
  · rw [hrunF, hrunT]
    simp only [updateCheckoutByPI, refundStep]
    split_ifs <;> rfl
  · rw [hrunF]
    simp only [updateCheckoutByPI, refundStep]
    split_ifs with h1 h2
    · exact absurd h2 (by simp)
    · simpa using hLrefunds
    · simpa using hLrefunds

/-- Witness for C2 at the example pending checkout (a write plus a stale
redact): the checkout completes with a 2.00 refund and one recorded failure
with its reason. -/
theorem reconciliation_partial_refund_witness :
    findCheckout (handleWebhook exDBC "payment_intent.succeeded" "pi_1" true).1
        "pi_1" =
      some (markCompleted
        [{ type := .write, wordId := some 6, success := true },
         { type := .redact, wordId := some 2, success := false,
           reason := some "Word is already redacted or removed." }]
        200 (markProcessing exCheckout))
  ∧ (handleWebhook exDBC "payment_intent.succeeded" "pi_1" false).1.words =
      (handleWebhook exDBC "payment_intent.succeeded" "pi_1" true).1.words := by
  have h := reconciliation_partial_refund exDBC "pi_1" true exCheckout
    (by decide) rfl
  constructor
  · have h1 := h.1
    have hres : resultsOf "pi_1" (dbProcessing exDBC "pi_1")
        exCheckout.cart_actions =
        [{ type := .write, wordId := some 6, success := true },
         { type := .redact, wordId := some 2, success := false,
           reason := some "Word is already redacted or removed." }] := by decide
    have href : refundOf "pi_1" (dbProcessing exDBC "pi_1")
        exCheckout.cart_actions = 200 := by decide
    rw [hres, href] at h1
    exact h1
  · exact h.2.2.2.1

/-- C2 counterexample to the claim as stated: a stored batch whose only
action has the legacy `flag` type with a declared price of 1.00 completes
with `refund_amount` 100 cents although no action failed a ledger guard or
threw — the result list is empty, so the refund is not the sum over recorded
failures (which is 0), and no per-action result records any failure. -/
theorem reconciliation_refund_without_failure :
    (findCheckout (handleWebhook cexDB "payment_intent.succeeded" "pi_2" true).1
        "pi_2").map (fun c => (c.status, c.refund_amount, c.results)) =
      some (CheckoutStatus.completed, 100, some [])
  ∧ ((0:Int) < 100) := by
  constructor
  · decide
  · decide

/-- Generic lookup over a conditional map: when the mapped function
preserves the searched predicate, the first match is the image of the first
match. -/
theorem find?_map_cond {α : Type} (l : List α) (q : α → Bool) (g : α → α)
    (hg : ∀ x, q (g x) = q x) :
    (l.map (fun x => if q x then g x else x)).find? q = (l.find? q).map g := by
  induction l with
  | nil => rfl
  | cons x l ih =>
    simp only [List.map_cons]
    by_cases hx : q x = true
    · rw [if_pos hx, List.find?_cons_of_pos _ (by rw [hg]; exact hx),
        List.find?_cons_of_pos _ hx]
      rfl
    · rw [if_neg hx, List.find?_cons_of_neg _ hx, List.find?_cons_of_neg _ hx]
      exact ih

/-- Generic lookup over a conditional map is untouched when the searched
predicate is disjoint from the rewritten one. -/
theorem find?_map_cond_other {α : Type} (l : List α) (q q2 : α → Bool)
    (g : α → α) (hg : ∀ x, q2 (g x) = q2 x)
    (hdisj : ∀ x, q2 x = true → q x = false) :
    (l.map (fun x => if q x then g x else x)).find? q2 = l.find? q2 := by
  induction l with
  | nil => rfl
  | cons x l ih =>
    simp only [List.map_cons]
    by_cases hx : q2 x = true
    · have hq : q x = false := hdisj x hx
      rw [if_neg (by simp [hq]), List.find?_cons_of_pos _ hx,
        List.find?_cons_of_pos _ hx]
    · have hxm : ¬q2 (if q x then g x else x) = true := by
        split
        · rw [hg]; exact hx
        · exact hx
      rw [List.find?_cons_of_neg _ hxm, List.find?_cons_of_neg _ hx]
      exact ih

/-- Lookup in a concatenation whose first part has no match. -/
theorem find?_append_of_none {α : Type} (l₁ l₂ : List α) (q : α → Bool)
    (h : l₁.find? q = none) : (l₁ ++ l₂).find? q = l₂.find? q := by
  induction l₁ with
  | nil => rfl
  | cons x l ih =>
    by_cases hx : q x = true
    · rw [List.find?_cons_of_pos _ hx] at h
      simp at h
    · rw [List.find?_cons_of_neg _ hx] at h
      rw [List.cons_append, List.find?_cons_of_neg _ hx]
      exact ih h

/-- Lookup in a concatenation whose first part already matches. -/
theorem find?_append_of_some {α : Type} (l₁ l₂ : List α) (q : α → Bool)
    (p : α) (h : l₁.find? q = some p) : (l₁ ++ l₂).find? q = some p := by
  induction l₁ with
  | nil => simp at h
  | cons x l ih =>
    by_cases hx : q x = true
    · rw [List.find?_cons_of_pos _ hx] at h
      rw [List.cons_append, List.find?_cons_of_pos _ hx]
      exact h
    · rw [List.find?_cons_of_neg _ hx] at h
      rw [List.cons_append, List.find?_cons_of_neg _ hx]
      exact ih h

/-- Tracking a type under a word id appends it to that id's list. -/
theorem lookupWA_track_same (wa : List (Nat × List CartActionType))
    (wid : Nat) (t : CartActionType) :
    lookupWA (trackWordAction wa wid t) wid = lookupWA wa wid ++ [t] := by
  unfold trackWordAction lookupWA
  by_cases hmem : wa.any (fun p => p.1 == wid) = true
  · rw [if_pos hmem]
    rw [find?_map_cond wa (fun p => p.1 == wid) (fun p => (p.1, p.2 ++ [t]))
      (fun x => rfl)]
    rcases hf : wa.find? (fun p => p.1 == wid) with _ | p
    · rcases List.any_eq_true.mp hmem with ⟨p, hp, hq⟩
      have := List.find?_eq_none.mp hf p hp
      simp [hq] at this
    · rw [hf]
      rfl
  · rw [if_neg hmem]
    have hnone : wa.find? (fun p => p.1 == wid) = none := by
      rw [List.find?_eq_none]
      intro p hp
      simp only [Bool.not_eq_true]
      rcases hq : (p.1 == wid) with _ | _
      · rfl
      · exact absurd (List.any_eq_true.mpr ⟨p, hp, hq⟩) hmem
    rw [find?_append_of_none _ _ _ hnone, hnone]
    simp

/-- Tracking a type under one word id leaves every other id's list alone. -/
theorem lookupWA_track_other (wa : List (Nat × List CartActionType))
    (wid wid2 : Nat) (t : CartActionType) (hne : wid2 ≠ wid) :
    lookupWA (trackWordAction wa wid t) wid2 = lookupWA wa wid2 := by
  unfold trackWordAction lookupWA
  by_cases hmem : wa.any (fun p => p.1 == wid) = true
  · rw [if_pos hmem]
    rw [find?_map_cond_other wa (fun p => p.1 == wid) (fun p => p.1 == wid2)
      (fun p => (p.1, p.2 ++ [t])) (fun x => rfl) ?_]
    intro x hx
    have hx2 : x.1 = wid2 := by simpa using hx
    simp [hx2, hne]
  · rw [if_neg hmem]
    rcases hf : wa.find? (fun p => p.1 == wid2) with _ | p
    · rw [find?_append_of_none _ _ _ hf, hf]
      simp [List.find?_cons, Ne.symm hne]
    · rw [find?_append_of_some _ _ _ p hf, hf]

/-- Key distinctness of the `wordActions` map is preserved by tracking. -/
theorem trackWordAction_keysNodup (wa : List (Nat × List CartActionType))
    (wid : Nat) (t : CartActionType) (h : WAKeysNodup wa) :
    WAKeysNodup (trackWordAction wa wid t) := by
  unfold trackWordAction WAKeysNodup
  by_cases hmem : wa.any (fun p => p.1 == wid) = true
  · rw [if_pos hmem]
    have : (wa.map (fun p => if (p.1 == wid) = true then (p.1, p.2 ++ [t]) else p)).map
        (fun p => p.1) = wa.map (fun p => p.1) := by
      rw [List.map_map]
      refine List.map_congr_left ?_
      intro p hp
      simp only [Function.comp]
      split <;> rfl
    rw [this]
    exact h
  · rw [if_neg hmem]
    simp only [List.map_append, List.map_cons, List.map_nil]
    rw [List.nodup_append]
    refine ⟨h, List.nodup_singleton _, ?_⟩
    intro a ha hb
    rcases List.mem_singleton.mp hb with rfl
    rcases List.mem_map.mp ha with ⟨p, hp, he⟩
    apply hmem
    exact List.any_eq_true.mpr ⟨p, hp, by simp [he]⟩

/-- Entries of a key-distinct `wordActions` map agree with its lookup. -/
theorem lookupWA_entry (wa : List (Nat × List CartActionType))
    (h : WAKeysNodup wa) (p : Nat × List CartActionType) (hp : p ∈ wa) :
    lookupWA wa p.1 = p.2 := by
  induction wa with
  | nil => simp at hp
  | cons x l ih =>
    unfold WAKeysNodup at h
    simp only [List.map_cons, List.nodup_cons] at h
    rcases List.mem_cons.mp hp with rfl | hp2
    · unfold lookupWA
      simp [List.find?_cons]
    · have hne : x.1 ≠ p.1 := by
        intro he
        exact h.1 (he ▸ List.mem_map_of_mem (fun p => p.1) hp2)
      unfold lookupWA
      rw [List.find?_cons_of_neg _ (by simp [hne])]
      exact ih h.2 hp2

/-- Success of the `validateCart` loop is exactly validity of every write
action's content. -/
theorem cartLoop_ok_iff : ∀ (actions : List CartAction) (total : Int)
    (wa : List (Nat × List CartActionType)),
    (∃ r, cartLoop actions total wa = .ok r) ↔ writeActionsValid actions := by
  intro actions
  induction actions with
  | nil =>
    intro total wa
    constructor
    · intro _ a ha
      simp at ha
    · intro _
      exact ⟨(total, wa), rfl⟩
  | cons a rest ih =>
    intro total wa
    by_cases ht : a.type = CartActionType.write
    · by_cases hc : truthy a.wordContent = true
      · by_cases hv : (validateWord (a.wordContent.getD "")).valid = true
        · simp only [cartLoop]
          rw [if_neg (by simp [hc]), if_neg (by simp [hv])]
          rw [ih]
          simp [writeActionsValid, List.forall_mem_cons, hc, hv]
        · simp only [cartLoop]
          rw [if_neg (by simp [hc]), if_pos (by simp [ht, hv, hc])]
          constructor
          · rintro ⟨r, hr⟩
            exact absurd hr (by simp)
          · intro hall
            exact absurd (hall a (List.mem_cons_self _ _) ht).2 hv
      · simp only [cartLoop]
        rw [if_pos (by simp [ht, hc])]
        constructor
        · rintro ⟨r, hr⟩
          exact absurd hr (by simp)
        · intro hall
          exact absurd (hall a (List.mem_cons_self _ _) ht).1 hc
    · simp only [cartLoop]
      rw [if_neg (by simp [ht]), if_neg (by simp [ht])]
      rw [ih]
      simp [writeActionsValid, List.forall_mem_cons, ht]

/-- Total accumulated by the `validateCart` loop: the sum of the declared
prices. -/
theorem cartLoop_total : ∀ (actions : List CartAction) (total : Int)
    (wa : List (Nat × List CartActionType)) (t : Int)
    (was : List (Nat × List CartActionType)),
    cartLoop actions total wa = .ok (t, was) → t = total + cartTotal actions := by
  intro actions
  induction actions with
  | nil =>
    intro total wa t was h
    simp only [cartLoop, Except.ok.injEq, Prod.mk.injEq] at h
    rw [← h.1]
    simp [cartTotal]
  | cons a rest ih =>
    intro total wa t was h
    simp only [cartLoop] at h
    split_ifs at h with h1 h2
    have := ih (total + a.price) _ t was h
    rw [this]
    simp [cartTotal]
    omega

/-- Key distinctness of the accumulated word-action map. -/
theorem cartLoop_keys : ∀ (actions : List CartAction) (total : Int)
    (wa : List (Nat × List CartActionType)) (t : Int)
    (was : List (Nat × List CartActionType)),
    WAKeysNodup wa → cartLoop actions total wa = .ok (t, was) →
    WAKeysNodup was := by
  intro actions
  induction actions with
  | nil =>
    intro total wa t was hk h
    simp only [cartLoop, Except.ok.injEq, Prod.mk.injEq] at h
    rw [← h.2]
    exact hk
  | cons a rest ih =>
    intro total wa t was hk h
    simp only [cartLoop] at h
    split_ifs at h with h1 h2
    rcases hw : a.wordId with _ | w0 <;> rw [hw] at h
    · exact ih _ _ t was hk h
    · exact ih _ _ t was (trackWordAction_keysNodup wa w0 a.type hk) h

/-- Lookup characterization of the accumulated word-action map: per word id
it accumulates the batch's action types in submission order. -/
theorem cartLoop_lookup : ∀ (actions : List CartAction) (total : Int)
    (wa : List (Nat × List CartActionType)) (t : Int)
    (was : List (Nat × List CartActionType)),
    cartLoop actions total wa = .ok (t, was) →
    ∀ wid, lookupWA was wid = lookupWA wa wid ++ typesFor actions wid := by
  intro actions
  induction actions with
  | nil =>
    intro total wa t was h wid
    simp only [cartLoop, Except.ok.injEq, Prod.mk.injEq] at h
    rw [← h.2]
    simp [typesFor]
  | cons a rest ih =>
    intro total wa t was h wid
    simp only [cartLoop] at h
    split_ifs at h with h1 h2
    rcases hw : a.wordId with _ | w0 <;> rw [hw] at h
    · rw [ih _ _ t was h wid]
      simp [typesFor, List.filter_cons, hw]
    · by_cases hww : wid = w0
      · subst hww
        rw [ih _ _ t was h wid, lookupWA_track_same]
        simp [typesFor, List.filter_cons, hw]
      · rw [ih _ _ t was h wid, lookupWA_track_other wa w0 wid a.type hww]
        simp [typesFor, List.filter_cons, hw, Ne.symm hww]

/-- Membership in the types queued against a word id. -/
theorem mem_typesFor (actions : List CartAction) (wid : Nat)
    (t : CartActionType) :
    t ∈ typesFor actions wid ↔
      ∃ a ∈ actions, a.wordId = some wid ∧ a.type = t := by
  simp only [typesFor, List.mem_map, List.mem_filter, beq_iff_eq]
  constructor
  · rintro ⟨a, ⟨ha, hw⟩, htp⟩
    exact ⟨a, ha, hw, htp⟩
  · rintro ⟨a, ha, hw, htp⟩
    exact ⟨a, ⟨ha, hw⟩, htp⟩

/-- Reduction of `validateCart` on a non-empty batch whose loop fails. -/
theorem validateCart_err (actions : List CartAction) (e : String)
    (hemp : actions.isEmpty = false)
    (hloop : cartLoop actions 0 [] = .error e) :
    validateCart actions = { valid := false, error := some e } := by
  unfold validateCart
  rw [hloop, if_neg (by simp [hemp])]

/-- Reduction of `validateCart` on a non-empty batch whose loop succeeds. -/
theorem validateCart_ok (actions : List CartAction) (t : Int)
    (was : List (Nat × List CartActionType))
    (hemp : actions.isEmpty = false)
    (hloop : cartLoop actions 0 [] = .ok (t, was)) :
    validateCart actions =
      match was.find? (fun p =>
          p.2.contains CartActionType.redact &&
          p.2.contains CartActionType.uncover) with
      | some p =>
        { valid := false,
          error := some ("Conflicting actions on word " ++ toString p.1 ++
            ": cannot redact and uncover in the same checkout.") }
      | none =>
        if t < STRIPE_MINIMUM then
          { valid := false, error := some "Cart total must be at least $0.50." }
        else
          { valid := true } := by
  unfold validateCart
  rw [hloop, if_neg (by simp [hemp])]

/-- C4: the checkout validator accepts a batch if and only if it is
non-empty, every write action carries content passing the word-validation
rules, no single word id has both a redact and an uncover action queued, and
the summed declared prices reach the processor minimum of 0.50; every
rejection carries a single human-readable reason, and a rejected batch
creates no payment intent and stores no checkout — the state is returned
untouched (no partial acceptance). -/
theorem cart_validator_accepts_iff (actions : List CartAction) (db : DB)
    (totalAmount : Int) (piId : String) :
    ((validateCart actions).valid = true ↔
      (actions ≠ [] ∧ writeActionsValid actions ∧ ¬hasConflict actions ∧
        STRIPE_MINIMUM ≤ cartTotal actions))
  ∧ ((validateCart actions).valid = false →
      (validateCart actions).error.isSome = true)
  ∧ ((validateCart actions).valid = false →
      checkoutPOST db actions totalAmount piId =
        (db, .error ((validateCart actions).error.getD ""))) := by
  refine ⟨?_, ?_, ?_⟩
  · by_cases hemp : actions.isEmpty = true
    · have hnil : actions = [] := List.isEmpty_iff.mp hemp
      simp [validateCart, hemp, hnil]
    · have hne : actions ≠ [] := by
        simpa [List.isEmpty_iff] using hemp
      have hemp' : actions.isEmpty = false := by
        simpa using hemp
      cases hloop : cartLoop actions 0 [] with
      | error e =>
        have hnw : ¬writeActionsValid actions := by
          intro hwv
          rcases (cartLoop_ok_iff actions 0 []).mpr hwv with ⟨r, hr⟩
          rw [hloop] at hr
          exact absurd hr (by simp)
        rw [validateCart_err actions e hemp' hloop]
        simp [hnw]
      | ok r =>
        rcases r with ⟨t, was⟩
        have hwv : writeActionsValid actions :=
          (cartLoop_ok_iff actions 0 []).mp ⟨_, hloop⟩
        have ht : t = cartTotal actions := by
          have := cartLoop_total actions 0 [] t was hloop
          simpa using this
        have hkeys : WAKeysNodup was :=
          cartLoop_keys actions 0 [] t was (by simp [WAKeysNodup]) hloop
        have hlk : ∀ wid, lookupWA was wid = typesFor actions wid := by
          intro wid
          have := cartLoop_lookup actions 0 [] t was hloop wid
          simpa [lookupWA] using this
        rw [validateCart_ok actions t was hemp' hloop]
        cases hfind : was.find? (fun p =>
            p.2.contains CartActionType.redact &&
            p.2.contains CartActionType.uncover) with
        | some p =>
          have hpmem := List.mem_of_find?_eq_some hfind
          have hq := List.find?_some hfind
          have hlkp := lookupWA_entry was hkeys p hpmem
          rw [hlk p.1] at hlkp
          have hru : CartActionType.redact ∈ p.2 ∧
              CartActionType.uncover ∈ p.2 := by
            simpa using hq
          have hconf : hasConflict actions := by
            refine ⟨p.1, ?_, ?_⟩
            · refine (mem_typesFor actions p.1 CartActionType.redact).mp ?_
              rw [hlkp]
              exact hru.1
            · refine (mem_typesFor actions p.1 CartActionType.uncover).mp ?_
              rw [hlkp]
              exact hru.2
          simp [hconf]
        | none =>
          have hnoconf : ¬hasConflict actions := by
            rintro ⟨wid, ⟨a1, ha1, hw1, ht1⟩, ⟨a2, ha2, hw2, ht2⟩⟩
            have h1 : CartActionType.redact ∈ typesFor actions wid :=
              (mem_typesFor actions wid _).mpr ⟨a1, ha1, hw1, ht1⟩
            have h2 : CartActionType.uncover ∈ typesFor actions wid :=
              (mem_typesFor actions wid _).mpr ⟨a2, ha2, hw2, ht2⟩
            rw [← hlk wid] at h1 h2
            unfold lookupWA at h1 h2
            rcases hfw : was.find? (fun p => p.1 == wid) with _ | q <;>
              rw [hfw] at h1 h2
            · simp at h1
            · have hqmem := List.mem_of_find?_eq_some hfw
              have hnq := List.find?_eq_none.mp hfind q hqmem
              have hcr : CartActionType.redact ∈ q.2 := by
                simpa using h1
              have hcu : CartActionType.uncover ∈ q.2 := by
                simpa using h2
              simp [hcr, hcu] at hnq
          by_cases hlt : t < STRIPE_MINIMUM
          · have hlt' : ¬STRIPE_MINIMUM ≤ cartTotal actions := by
              rw [← ht]
              exact not_le.mpr hlt
            simp [hlt, hlt']
          · have hlt' : STRIPE_MINIMUM ≤ cartTotal actions := by
              rw [← ht]
              exact not_lt.mp hlt
            simp [hlt, hne, hwv, hnoconf, hlt']
  · intro hval
    by_cases hemp : actions.isEmpty = true
    · simp [validateCart, hemp]
    · have hemp' : actions.isEmpty = false := by
        simpa using hemp
      cases hloop : cartLoop actions 0 [] with
      | error e =>
        rw [validateCart_err actions e hemp' hloop]
        simp
      | ok r =>
        rcases r with ⟨t, was⟩
        rw [validateCart_ok actions t was hemp' hloop] at hval ⊢
        cases hfind : was.find? (fun p =>
            p.2.contains CartActionType.redact &&
            p.2.contains CartActionType.uncover) with
        | some p =>
          simp
        | none =>
          rw [hfind] at hval
          by_cases hlt : t < STRIPE_MINIMUM
          · simp [hlt]
          · simp [hlt] at hval
  · intro hval
    simp [checkoutPOST, hval]

/-- Witness for C4: a conflicting batch is rejected with a reason and leaves
the state untouched; the same batch without the conflict is accepted. -/
theorem cart_validator_accepts_iff_witness :
    (validateCart [exStaleRedact,
      { type := .uncover, wordId := some 2, price := 200 }]).valid = false
  ∧ (validateCart [exStaleRedact,
      { type := .uncover, wordId := some 2, price := 200 }]).error.isSome = true
  ∧ checkoutPOST exDB [exStaleRedact,
      { type := .uncover, wordId := some 2, price := 200 }] 400 "pi_c" =
      (exDB, .error ((validateCart [exStaleRedact,
        { type := .uncover, wordId := some 2, price := 200 }]).error.getD ""))
  ∧ (validateCart [exWrite]).valid = true := by
  have h := cart_validator_accepts_iff [exStaleRedact,
    { type := .uncover, wordId := some 2, price := 200 }] exDB 400 "pi_c"
  have h2 := cart_validator_accepts_iff [exWrite] exDB 100 "pi_c"
  have hval : (validateCart [exStaleRedact,
      { type := .uncover, wordId := some 2, price := 200 }]).valid = false := by
    decide
  refine ⟨hval, h.2.1 hval, h.2.2 hval, ?_⟩
  refine h2.1.mpr ⟨by decide, ?_, ?_, by decide⟩
  · intro a ha hw
    fin_cases ha
    exact ⟨by decide, by decide⟩
  · rintro ⟨wid, ⟨a1, ha1, hw1, ht1⟩, -⟩
    fin_cases ha1
    simp [exWrite] at ht1

end Redacted
